import Mathlib

/- Shallow embedding of the validatorjs rule-normalization and evaluation
engine: `src/validator.js` (the `Validator` class) and the repository's
`Messages` class. JavaScript values are modelled by `Value`; the JavaScript
`undefined` produced by the engine (a missing property, the bare `return`)
is `Option.none` at the points where the source can produce it. External
collaborator modules that are not part of the repository sources
(`rules.js`, `errors.js`, `async.js`, `lang.js`, `attributes.js`) are
modelled from the specification where a claim depends on them; each such
definition says so in its doc comment. -/

namespace ValidatorJS

/-- A JavaScript value as handled by the engine: primitives, arrays and
plain objects (insertion-ordered key/value lists, as JS objects are). -/
inductive Value where
  | vNull
  | vBool (b : Bool)
  | vNum (n : Int)
  | vStr (s : String)
  | arr (elems : List Value)
  | obj (fields : List (String × Value))

instance : Inhabited Value := ⟨.vNull⟩

/-- First-match association-list lookup, the semantics of reading a
property from a JS object (keys are unique in a real JS object). -/
def assocFind (m : List (String × α)) (k : String) : Option α :=
  match m with
  | [] => none
  | (k', v) :: rest => if k' = k then some v else assocFind rest k

/-- JavaScript object assignment `o[k] = v`: overwrites in place when the
key exists, otherwise appends, preserving insertion order. -/
def insertAssoc (m : List (String × α)) (k : String) (v : α) : List (String × α) :=
  if (assocFind m k).isSome then m.map (fun p => if p.1 = k then (k, v) else p)
  else m ++ [(k, v)]

/-- Decimal digit character (codepoints 48-57); only digits below ten are
ever produced. -/
def decDigitChar (d : Nat) : Char :=
  match d with
  | 0 => '0'
  | 1 => '1'
  | 2 => '2'
  | 3 => '3'
  | 4 => '4'
  | 5 => '5'
  | 6 => '6'
  | 7 => '7'
  | 8 => '8'
  | 9 => '9'
  | _ => '?'

/-- Fuel-indexed decimal digit expansion (most significant digit first);
the fuel only bounds the recursion depth and `decDigits` always supplies
enough of it. -/
def decDigitsCore : Nat → Nat → List Char
  | 0, n => [decDigitChar n]
  | fuel + 1, n =>
    if n < 10 then [decDigitChar n]
    else decDigitsCore fuel (n / 10) ++ [decDigitChar (n % 10)]

/-- Decimal digit list of a natural number, most significant first: the
string JavaScript produces when a non-negative integer is coerced. -/
def decDigits (n : Nat) : List Char := decDigitsCore n n

/-- JavaScript number-to-string coercion for the non-negative integers the
engine substitutes for `*` (array indices). -/
def decRepr (n : Nat) : String := String.mk (decDigits n)

/-- JavaScript truthiness. -/
def Value.truthy : Value → Bool
  | .vNull => false
  | .vBool b => b
  | .vNum n => n != 0
  | .vStr s => !(s == "")
  | .arr _ => true
  | .obj _ => true

/-- Whether the value is the `null` literal. -/
def Value.isNull : Value → Bool
  | .vNull => true
  | _ => false

/-- `typeof v === 'object'`: true for plain objects, arrays and `null`. -/
def Value.isTypeofObject : Value → Bool
  | .obj _ => true
  | .arr _ => true
  | .vNull => true
  | _ => false

/-- Canonical array index resolution: `k` names an own index property of an
array (or string) of length `len` when it is the decimal representation of
some `i < len`. -/
def arrIndex (len : Nat) (k : String) : Option Nat :=
  (List.range len).find? (fun i => decRepr i == k)

/-- `Object.prototype.hasOwnProperty.call (v, k)` for the value shapes the
engine probes: object keys; array indices and `length`; string indices and
`length`. -/
def Value.hasOwn : Value → String → Bool
  | .obj fields, k => (assocFind fields k).isSome
  | .arr elems, k => if k = "length" then true else (arrIndex elems.length k).isSome
  | .vStr s, k => if k = "length" then true else (arrIndex s.length k).isSome
  | _, _ => false

/-- Own-property read `v[k]`, `none` when the property is missing. -/
def Value.getOwn : Value → String → Option Value
  | .obj fields, k => assocFind fields k
  | .arr elems, k =>
    if k = "length" then some (.vNum elems.length)
    else (arrIndex elems.length k).bind (fun i => elems.get? i)
  | .vStr s, k =>
    if k = "length" then some (.vNum s.length)
    else (arrIndex s.length k).map (fun i => .vStr (String.mk (s.toList.drop i |>.take 1)))
  | _, _ => none

/-- Single-character `String.prototype.split` with JavaScript semantics:
the empty string yields `[""]`, separators at either end yield empty
segments. `acc` holds the current segment reversed. -/
def splitCharAux (c : Char) : List Char → List Char → List String
  | [], acc => [String.mk acc.reverse]
  | x :: rest, acc =>
    if x = c then String.mk acc.reverse :: splitCharAux c rest []
    else splitCharAux c rest (x :: acc)

/-- `s.split(c)` for a one-character separator. -/
def jsSplitChar (c : Char) (s : String) : List String := splitCharAux c s.toList []

/-- Word character of the bracket-normalization regex `\[(\w+)\]`. -/
def isWordChar (c : Char) : Bool := c.isAlphanum || c == '_'

/-- Fuel-indexed core of the bracket-normalization rewrite; the fuel only
bounds the recursion depth and `normBrackets` always supplies enough. -/
def normBracketsCore : Nat → List Char → List Char
  | 0, l => l
  | fuel + 1, l =>
    match l with
    | [] => []
    | c :: rest =>
      if c = '[' then
        match rest.takeWhile isWordChar, rest.dropWhile isWordChar with
        | w₁ :: ws, ']' :: tail => '.' :: ((w₁ :: ws) ++ normBracketsCore fuel tail)
        | _, _ => c :: normBracketsCore fuel rest
      else c :: normBracketsCore fuel rest

/-- Global rewrite of `path.replace(/\[(\w+)\]/g, '.$1')`: every bracketed
word becomes a dot segment; unmatched brackets are left in place and the
scan continues after them. -/
def normBrackets (l : List Char) : List Char := normBracketsCore l.length l

/-- `path.replace(/^\./, '')`: strip one leading dot. -/
def stripLeadDot (l : List Char) : List Char :=
  match l with
  | c :: rest => if c = '.' then rest else c :: rest
  | [] => []

/-- The segment list `_objectPath` walks (line 177): bracket segments
normalized to dots, one leading dot stripped, then split on `.`. -/
def pathKeys (path : String) : List String :=
  splitCharAux '.' (stripLeadDot (normBrackets path.toList)) []

/-- The `for (attr in obj) copy[attr] = obj[attr]` shallow copy (lines
178-183): objects copy their own enumerable entries, arrays enumerate
index keys, primitives produce an empty object. -/
def shallowCopy : Value → Value
  | .obj fields => .obj fields
  | .arr elems => .obj (elems.mapIdx (fun i v => (decRepr i, v)))
  | _ => .obj []

/-- The key-walking loop of `_objectPath` (lines 185-191): steps into an
own property while the current value is a non-null `typeof 'object'`,
returning `undefined` (`none`) at the first missing segment or non-object
intermediate. -/
def walkKeys : List String → Value → Option Value
  | [], v => some v
  | k :: rest, v =>
    if v.isTypeofObject && !v.isNull && v.hasOwn k then
      match v.getOwn k with
      | some v' => walkKeys rest v'
      | none => none
    else none

/-- `_objectPath` (validator.js lines 172-193): literal top-level key fast
path, else normalize the path and walk a shallow copy key by key. -/
def objectPath (o : Value) (path : String) : Option Value :=
  if o.hasOwn path then o.getOwn path
  else walkKeys (pathKeys path) (shallowCopy o)

/-- `Object.getOwnPropertyNames(v).length` for the shapes reachable in
`_flattenObject`'s top-level emptiness probe: object keys; array indices
plus `length`; string indices plus `length`; primitives have none (the
`null` case is unreachable, the caller already checked truthiness). -/
def Value.ownPropCount : Value → Nat
  | .obj fields => fields.length
  | .arr elems => elems.length + 1
  | .vStr s => s.length + 1
  | _ => 0

/-- The path extension `property ? property + '.' + p : p` used by the
flatten recursion (line 152); `""` plays the falsy `undefined`. -/
def extendProp (property p : String) : String :=
  if property = "" then p else property ++ "." ++ p

mutual
/-- The `recurse` closure of `_flattenObject` (lines 142-158). `property`
is the accumulated dotted path, `""` standing for the initial `undefined`
(both are falsy, so the source's `property ? ... : p` test coincides).
Terminal values (primitives and arrays) are recorded under the current
property; a non-empty object recurses over its fields in order; an empty
object is recorded as an empty-object marker. -/
def flattenRec (current : Value) (property : String) (flattened : List (String × Value)) : List (String × Value) :=
  if property = "" && current.ownPropCount == 0 then flattened
  else
    match current with
    | .obj [] => insertAssoc flattened property (.obj [])
    | .obj fields => flattenFields fields property flattened
    | v => insertAssoc flattened property v

/-- Iteration of `for (const p in current)` inside `recurse`. -/
def flattenFields (fields : List (String × Value)) (property : String) (flattened : List (String × Value)) : List (String × Value) :=
  match fields with
  | [] => flattened
  | (p, v) :: rest =>
    flattenFields rest property (flattenRec v (extendProp property p) flattened)
end

/-- Dotted join of a key chain onto an accumulated property. -/
def joinProp (property : String) (chain : List String) : String :=
  chain.foldl extendProp property

/-- `_flattenObject` (lines 139-163): flatten a truthy root, else `{}`. -/
def flattenObject (o : Value) : List (String × Value) :=
  if o.truthy then flattenRec o "" [] else []

/-! Basic lemmas about the association-list primitives. -/

theorem assocFind_some_mem {m : List (String × α)} {k : String} {v : α}
    (h : assocFind m k = some v) : (k, v) ∈ m := by
  induction m with
  | nil => simp [assocFind] at h
  | cons p rest ih =>
    unfold assocFind at h
    split at h
    · next heq =>
      cases h
      exact heq ▸ List.mem_cons_self _ _
    · exact List.mem_cons_of_mem _ (ih h)

theorem assocFind_eq_of_mem_nodup {m : List (String × α)} {k : String} {v : α}
    (hmem : (k, v) ∈ m) (hnd : (m.map Prod.fst).Nodup) : assocFind m k = some v := by
  induction m with
  | nil => cases hmem
  | cons p rest ih =>
    rcases List.mem_cons.mp hmem with heq | hmem'
    · cases heq
      simp [assocFind]
    · rw [List.map_cons, List.nodup_cons] at hnd
      have hne : p.1 ≠ k := by
        intro h
        have : k ∈ rest.map Prod.fst := List.mem_map.mpr ⟨(k, v), hmem', rfl⟩
        exact hnd.1 (h ▸ this)
      simp only [assocFind, if_neg hne]
      exact ih hmem' hnd.2

theorem mem_insertAssoc {m : List (String × α)} {k : String} {v : α} {e : String × α}
    (h : e ∈ insertAssoc m k v) : e ∈ m ∨ e = (k, v) := by
  unfold insertAssoc at h
  split at h
  · rcases List.mem_map.mp h with ⟨p, hp, hfe⟩
    by_cases hk : p.1 = k
    · right
      rw [if_pos hk] at hfe
      exact hfe.symm
    · left
      rw [if_neg hk] at hfe
      exact hfe ▸ hp
  · rcases List.mem_append.mp h with h' | h'
    · exact Or.inl h'
    · exact Or.inr (List.mem_singleton.mp h')

/-! Lemmas about own-property access. -/

theorem getOwn_isSome_of_hasOwn {v : Value} {k : String} (h : v.hasOwn k = true) :
    (v.getOwn k).isSome = true := by
  cases v with
  | obj fields => exact h
  | arr elems =>
    simp only [Value.hasOwn] at h
    simp only [Value.getOwn]
    by_cases hl : k = "length"
    · rw [if_pos hl]; rfl
    · rw [if_neg hl] at h ⊢
      rcases Option.isSome_iff_exists.mp h with ⟨i, hi⟩
      have hlt : i < elems.length := List.mem_range.mp (List.mem_of_find?_eq_some hi)
      rw [hi]
      cases hg : elems.get? i with
      | none => exact absurd (List.get?_eq_none.mp hg) (Nat.not_le_of_lt hlt)
      | some w =>
        show (elems.get? i).isSome = true
        rw [hg]
        rfl
  | vStr s =>
    simp only [Value.hasOwn] at h
    simp only [Value.getOwn]
    by_cases hl : k = "length"
    · rw [if_pos hl]; rfl
    · rw [if_neg hl] at h ⊢
      rcases Option.isSome_iff_exists.mp h with ⟨i, hi⟩
      simp [hi]
  | vNull => simp [Value.hasOwn] at h
  | vBool b => simp [Value.hasOwn] at h
  | vNum n => simp [Value.hasOwn] at h

theorem hasOwn_of_getOwn_some {v : Value} {k : String} {w : Value}
    (h : v.getOwn k = some w) : v.hasOwn k = true := by
  cases v with
  | obj fields =>
    simp only [Value.getOwn] at h
    simp [Value.hasOwn, h]
  | arr elems =>
    simp only [Value.getOwn] at h
    simp only [Value.hasOwn]
    by_cases hl : k = "length"
    · rw [if_pos hl]
    · rw [if_neg hl] at h ⊢
      cases hi : arrIndex elems.length k with
      | none => rw [hi] at h; cases h
      | some i => simp [hi]
  | vStr s =>
    simp only [Value.getOwn] at h
    simp only [Value.hasOwn]
    by_cases hl : k = "length"
    · rw [if_pos hl]
    · rw [if_neg hl] at h ⊢
      cases hi : arrIndex s.length k with
      | none => rw [hi] at h; cases h
      | some i => simp [hi]
  | vNull => cases h
  | vBool b => cases h
  | vNum n => cases h

/-- C9: `_objectPath` first probes the path as a literal top-level own key
of the root and returns that value; otherwise it normalizes the path and
walks the segments over a shallow copy, stepping only into own properties
of non-null `typeof 'object'` values and returning the absent sentinel
(`none`) the moment a segment is missing or the intermediate value is not
such an object. As a total Lean function over the embedded value space it
can never throw. -/
theorem c9_objectPath_resolution (root : Value) (path : String) :
    (root.hasOwn path = true →
      objectPath root path = root.getOwn path ∧ (root.getOwn path).isSome = true) ∧
    (root.hasOwn path = false →
      objectPath root path = walkKeys (pathKeys path) (shallowCopy root)) ∧
    (∀ (v : Value) (k : String) (rest : List String),
      (v.isTypeofObject && !v.isNull && v.hasOwn k) = false →
      walkKeys (k :: rest) v = none) ∧
    (∀ (v v' : Value) (k : String) (rest : List String),
      (v.isTypeofObject && !v.isNull) = true → v.getOwn k = some v' →
      walkKeys (k :: rest) v = walkKeys rest v') := by
  refine ⟨fun h => ⟨?_, getOwn_isSome_of_hasOwn h⟩, fun h => ?_, fun v k rest h => ?_, fun v v' k rest h hv => ?_⟩
  · simp [objectPath, h]
  · simp [objectPath, h]
  · simp [walkKeys, h]
  · have hown : v.hasOwn k = true := hasOwn_of_getOwn_some hv
    simp [walkKeys, h, hown, hv]

/-- C9 witness: the fast path returns the literal dotted key's value on a
concrete object, and the walk rejects a non-object intermediate. -/
theorem c9_objectPath_resolution_witness :
    objectPath (.obj [("a.b", .vNum 7)]) "a.b" = Value.getOwn (.obj [("a.b", .vNum 7)]) "a.b" ∧
    walkKeys ["k"] (.vNum 3) = none :=
  ⟨((c9_objectPath_resolution (.obj [("a.b", .vNum 7)]) "a.b").1 (by decide)).1,
   (c9_objectPath_resolution (.obj [("a.b", .vNum 7)]) "a.b").2.2.1 (.vNum 3) "k" [] (by decide)⟩

/-! String utilities for reasoning about dotted path joins. -/

theorem strToList_append (a b : String) : (a ++ b).toList = a.toList ++ b.toList :=
  String.data_append a b

theorem strToList_ne_nil {a : String} (h : a ≠ "") : a.toList ≠ [] :=
  fun hl => h (String.ext hl)

theorem toList_dotAppend (a b : String) :
    (a ++ "." ++ b).toList = a.toList ++ '.' :: b.toList := by
  rw [strToList_append, strToList_append]
  simp

theorem dotAppend_ne_empty (a b : String) : a ++ "." ++ b ≠ "" := by
  intro h
  have := congrArg String.toList h
  rw [toList_dotAppend] at this
  simp at this

theorem extendProp_ne_empty {p : String} (property : String) (hp : p ≠ "") :
    extendProp property p ≠ "" := by
  unfold extendProp
  split
  · exact hp
  · exact dotAppend_ne_empty _ _

theorem extendProp_ne_empty_left {property : String} (p : String) (h : property ≠ "") :
    extendProp property p ≠ "" := by
  unfold extendProp
  rw [if_neg h]
  exact dotAppend_ne_empty _ _

theorem joinProp_cons (property k : String) (chain : List String) :
    joinProp property (k :: chain) = joinProp (extendProp property k) chain := rfl

theorem strAppend_assoc (a b c : String) : a ++ b ++ c = a ++ (b ++ c) :=
  String.ext (by simp [String.data_append])

theorem joinProp_dot (a : String) (chain : List String) :
    ∀ b : String, b ≠ "" → joinProp (a ++ "." ++ b) chain = a ++ "." ++ joinProp b chain := by
  induction chain with
  | nil => intro b _; rfl
  | cons c ch ih =>
    intro b hb
    rw [joinProp_cons, joinProp_cons]
    have hstep : extendProp (a ++ "." ++ b) c = a ++ "." ++ extendProp b c := by
      unfold extendProp
      rw [if_neg (dotAppend_ne_empty a b), if_neg hb]
      exact String.ext (by simp [String.data_append])
    rw [hstep]
    exact ih (extendProp b c) (extendProp_ne_empty_left c hb)

theorem joinProp_head {k c : String} (hk : k ≠ "") (hc : c ≠ "") (ch : List String) :
    joinProp k (c :: ch) = k ++ "." ++ joinProp c ch := by
  rw [joinProp_cons]
  show joinProp (extendProp k c) ch = _
  unfold extendProp
  rw [if_neg hk]
  exact joinProp_dot k ch c hc

/-- A key is addressing-safe when non-empty and free of the characters
(`.` and `[`) that `_objectPath`'s normalization reinterprets. -/
def goodKey (k : String) : Prop := k ≠ "" ∧ '.' ∉ k.toList ∧ '[' ∉ k.toList

instance (k : String) : Decidable (goodKey k) := by unfold goodKey; infer_instance

/-- Input values whose object keys, at every level, are addressing-safe
and unique; array contents are unconstrained since flattening treats
arrays as terminal values. -/
inductive GoodVal : Value → Prop
  | prim : ∀ v : Value, (∀ fs : List (String × Value), v ≠ .obj fs) → GoodVal v
  | objGood : ∀ fs : List (String × Value), (∀ kv ∈ fs, goodKey kv.1) →
      (∀ kv ∈ fs, GoodVal kv.2) → (fs.map Prod.fst).Nodup → GoodVal (.obj fs)

/-- `Chains o chain leaf`: following the key chain from `o` through nested
objects reaches the terminal value `leaf` exactly as the flatten recursion
does (primitives and arrays terminate; the empty object is its own leaf). -/
inductive Chains : Value → List String → Value → Prop
  | term : ∀ v : Value, (∀ fs : List (String × Value), v ≠ .obj fs) → Chains v [] v
  | emptyObj : Chains (.obj []) [] (.obj [])
  | step : ∀ (fs : List (String × Value)) (k : String) (v leaf : Value) (chain : List String),
      (k, v) ∈ fs → Chains v chain leaf → Chains (.obj fs) (k :: chain) leaf

theorem chains_nil_eq {v leaf : Value} (h : Chains v [] leaf) : leaf = v := by
  cases h with
  | term => rfl
  | emptyObj => rfl

theorem chains_keys_good {o : Value} {chain : List String} {leaf : Value}
    (hc : Chains o chain leaf) : GoodVal o → ∀ x ∈ chain, goodKey x := by
  induction hc with
  | term v hv => intro _ x hx; cases hx
  | emptyObj => intro _ x hx; cases hx
  | step fs k v leaf chain hmem hch ih =>
    intro hg x hx
    cases hg with
    | prim _ hv => exact absurd rfl (hv fs)
    | objGood _ hkeys hvals _ =>
      rcases List.mem_cons.mp hx with hx | hx
      · exact hx ▸ hkeys (k, v) hmem
      · exact ih (hvals (k, v) hmem) x hx

theorem noBracket_joinProp {c : String} {ch : List String} :
    goodKey c → (∀ x ∈ ch, goodKey x) → '[' ∉ (joinProp c ch).toList := by
  induction ch generalizing c with
  | nil => intro hc _; exact hc.2.2
  | cons d ch ih =>
    intro hc hch
    have hd : goodKey d := hch d (List.mem_cons_self _ _)
    rw [joinProp_head hc.1 hd.1]
    rw [toList_dotAppend]
    intro hmem
    rcases List.mem_append.mp hmem with h | h
    · exact hc.2.2 h
    · rcases List.mem_cons.mp h with h | h
      · cases h
      · exact ih hd (fun x hx => hch x (List.mem_cons_of_mem _ hx)) h

/-! Lemmas about the splitting primitives. -/

theorem splitCharAux_append_sep (c : Char) (l₁ : List Char) :
    ∀ (l₂ acc : List Char),
      splitCharAux c (l₁ ++ c :: l₂) acc = splitCharAux c l₁ acc ++ splitCharAux c l₂ [] := by
  induction l₁ with
  | nil =>
    intro l₂ acc
    show (if c = c then String.mk acc.reverse :: splitCharAux c l₂ []
      else splitCharAux c l₂ (c :: acc)) = _
    rw [if_pos rfl]
    rfl
  | cons x r ih =>
    intro l₂ acc
    have hunf : splitCharAux c ((x :: r) ++ c :: l₂) acc
        = if x = c then String.mk acc.reverse :: splitCharAux c (r ++ c :: l₂) []
          else splitCharAux c (r ++ c :: l₂) (x :: acc) := rfl
    have hunf2 : splitCharAux c (x :: r) acc
        = if x = c then String.mk acc.reverse :: splitCharAux c r []
          else splitCharAux c r (x :: acc) := rfl
    rw [hunf, hunf2]
    by_cases hx : x = c
    · rw [if_pos hx, if_pos hx, ih]
      rfl
    · rw [if_neg hx, if_neg hx]
      exact ih l₂ (x :: acc)

theorem splitCharAux_no_sep (c : Char) (l : List Char) (h : c ∉ l) :
    ∀ acc : List Char, splitCharAux c l acc = [String.mk (acc.reverse ++ l)] := by
  induction l with
  | nil => intro acc; simp [splitCharAux]
  | cons x r ih =>
    intro acc
    have hx : ¬ x = c := fun he => h (he ▸ List.mem_cons_self x r)
    simp only [splitCharAux, if_neg hx]
    rw [ih (fun hr => h (List.mem_cons_of_mem _ hr)) (x :: acc)]
    simp

theorem normBracketsCore_no_bracket :
    ∀ (l : List Char) (fuel : Nat), '[' ∉ l → normBracketsCore fuel l = l := by
  intro l
  induction l with
  | nil => intro fuel _; cases fuel <;> rfl
  | cons ch rest ih =>
    intro fuel h
    cases fuel with
    | zero => rfl
    | succ f =>
      have hch : ¬ ch = '[' := fun he => h (he ▸ List.mem_cons_self ch rest)
      simp only [normBracketsCore, if_neg hch]
      rw [ih f (fun hr => h (List.mem_cons_of_mem _ hr))]

theorem stripLeadDot_no_dot {l : List Char} (h : '.' ∉ l) : stripLeadDot l = l := by
  cases l with
  | nil => rfl
  | cons c rest =>
    have hc : ¬ c = '.' := fun he => h (he ▸ List.mem_cons_self c rest)
    simp [stripLeadDot, hc]

theorem splitCharAux_joinProp {c : String} {ch : List String} :
    goodKey c → (∀ x ∈ ch, goodKey x) →
    splitCharAux '.' (joinProp c ch).toList [] = c :: ch := by
  induction ch generalizing c with
  | nil =>
    intro hc _
    show splitCharAux '.' c.toList [] = [c]
    rw [splitCharAux_no_sep '.' c.toList hc.2.1 []]
    simp
  | cons d ch ih =>
    intro hc hch
    have hd : goodKey d := hch d (List.mem_cons_self _ _)
    rw [joinProp_head hc.1 hd.1, toList_dotAppend,
      splitCharAux_append_sep '.' c.toList _ [],
      splitCharAux_no_sep '.' c.toList hc.2.1 [],
      ih hd (fun x hx => hch x (List.mem_cons_of_mem _ hx))]
    simp

theorem stripLeadDot_of_head {c : Char} {rest : List Char} (h : c ≠ '.') :
    stripLeadDot (c :: rest) = c :: rest := by
  simp [stripLeadDot, h]

theorem pathKeys_joinProp {c : String} {ch : List String}
    (hc : goodKey c) (hch : ∀ x ∈ ch, goodKey x) :
    pathKeys (joinProp c ch) = c :: ch := by
  unfold pathKeys normBrackets
  rw [normBracketsCore_no_bracket _ _ (noBracket_joinProp hc hch)]
  obtain ⟨c0, r0, hc0⟩ := List.exists_cons_of_ne_nil (strToList_ne_nil hc.1)
  have hc0dot : c0 ≠ '.' :=
    fun he => hc.2.1 (by rw [hc0]; exact he ▸ List.mem_cons_self _ _)
  have hhead : ∃ tail, (joinProp c ch).toList = c0 :: tail := by
    cases ch with
    | nil => exact ⟨r0, hc0⟩
    | cons d ch' =>
      have hd : goodKey d := hch d (List.mem_cons_self _ _)
      rw [joinProp_head hc.1 hd.1, toList_dotAppend, hc0]
      exact ⟨r0 ++ '.' :: (joinProp d ch').toList, rfl⟩
  obtain ⟨tail, htail⟩ := hhead
  rw [htail, stripLeadDot_of_head hc0dot, ← htail]
  exact splitCharAux_joinProp hc hch

theorem flattenRec_not_obj {v : Value} (hnotobj : ∀ fs : List (String × Value), v ≠ .obj fs)
    {property : String} (hprop : property ≠ "") (acc : List (String × Value)) :
    flattenRec v property acc = insertAssoc acc property v := by
  have hdec : decide (property = "") = false := decide_eq_false hprop
  cases v with
  | obj fields => exact absurd rfl (hnotobj fields)
  | vNull =>
    have h : flattenRec Value.vNull property acc
        = if (decide (property = "") && (Value.ownPropCount Value.vNull == 0)) = true
          then acc else insertAssoc acc property Value.vNull := rfl
    rw [h, hdec]
    simp
  | vBool b =>
    have h : flattenRec (Value.vBool b) property acc
        = if (decide (property = "") && (Value.ownPropCount (Value.vBool b) == 0)) = true
          then acc else insertAssoc acc property (Value.vBool b) := rfl
    rw [h, hdec]
    simp
  | vNum n =>
    have h : flattenRec (Value.vNum n) property acc
        = if (decide (property = "") && (Value.ownPropCount (Value.vNum n) == 0)) = true
          then acc else insertAssoc acc property (Value.vNum n) := rfl
    rw [h, hdec]
    simp
  | vStr s =>
    have h : flattenRec (Value.vStr s) property acc
        = if (decide (property = "") && (Value.ownPropCount (Value.vStr s) == 0)) = true
          then acc else insertAssoc acc property (Value.vStr s) := rfl
    rw [h, hdec]
    simp
  | arr elems =>
    have h : flattenRec (Value.arr elems) property acc
        = if (decide (property = "") && (Value.ownPropCount (Value.arr elems) == 0)) = true
          then acc else insertAssoc acc property (Value.arr elems) := rfl
    rw [h, hdec]
    simp

theorem flattenRec_obj_nil {property : String} (hprop : property ≠ "")
    (acc : List (String × Value)) :
    flattenRec (.obj []) property acc = insertAssoc acc property (.obj []) := by
  have hdec : decide (property = "") = false := decide_eq_false hprop
  have h : flattenRec (Value.obj []) property acc
      = if (decide (property = "") && (Value.ownPropCount (Value.obj []) == 0)) = true
        then acc else insertAssoc acc property (Value.obj []) := rfl
  rw [h, hdec]
  simp

theorem flattenRec_obj_cons (f : String × Value) (fs' : List (String × Value))
    (property : String) (acc : List (String × Value)) :
    flattenRec (.obj (f :: fs')) property acc = flattenFields (f :: fs') property acc := by
  have h : flattenRec (Value.obj (f :: fs')) property acc
      = if (decide (property = "") && (Value.ownPropCount (Value.obj (f :: fs')) == 0)) = true
        then acc else flattenFields (f :: fs') property acc := rfl
  rw [h]
  have hcount : ((Value.obj (f :: fs')).ownPropCount == 0) = false := by
    show (((f :: fs').length) == 0) = false
    simp
  rw [hcount]
  simp

/-- Every entry produced by the flatten recursion on a well-keyed value is
either inherited from the accumulator or is the dotted join of a key chain
of the value paired with the leaf that chain reaches. -/
theorem flattenRec_mem_structure {o : Value} (hg : GoodVal o) :
    (∀ (property : String) (acc : List (String × Value)) (e : String × Value),
        property ≠ "" → e ∈ flattenRec o property acc →
        e ∈ acc ∨ ∃ chain leaf, Chains o chain leaf ∧ e = (joinProp property chain, leaf)) ∧
    (∀ fs : List (String × Value), o = .obj fs →
      ∀ gs : List (String × Value), (∀ kv ∈ gs, kv ∈ fs) →
        ∀ (property : String) (acc : List (String × Value)) (e : String × Value),
          e ∈ flattenFields gs property acc →
          e ∈ acc ∨ ∃ (k : String) (v : Value) (chain : List String) (leaf : Value),
            (k, v) ∈ fs ∧ Chains v chain leaf ∧
            e = (joinProp property (k :: chain), leaf)) := by
  induction hg with
  | prim v hv =>
    refine ⟨fun property acc e hprop he => ?_, fun fs hfs => absurd hfs (hv fs)⟩
    rw [flattenRec_not_obj hv hprop] at he
    rcases mem_insertAssoc he with h | h
    · exact Or.inl h
    · exact Or.inr ⟨[], v, Chains.term v hv, h⟩
  | objGood fs hkeys hvals hnd ih =>
    have hΨ : ∀ gs : List (String × Value), (∀ kv ∈ gs, kv ∈ fs) →
        ∀ (property : String) (acc : List (String × Value)) (e : String × Value),
          e ∈ flattenFields gs property acc →
          e ∈ acc ∨ ∃ (k : String) (v : Value) (chain : List String) (leaf : Value),
            (k, v) ∈ fs ∧ Chains v chain leaf ∧
            e = (joinProp property (k :: chain), leaf) := by
      intro gs
      induction gs with
      | nil => intro _ property acc e he; exact Or.inl he
      | cons pv gs' ihg =>
        intro hsub property acc e he
        obtain ⟨p, v⟩ := pv
        have hpv : (p, v) ∈ fs := hsub (p, v) (List.mem_cons_self _ _)
        have hsub' : ∀ kv ∈ gs', kv ∈ fs := fun kv h => hsub kv (List.mem_cons_of_mem _ h)
        rw [show flattenFields ((p, v) :: gs') property acc
            = flattenFields gs' property (flattenRec v (extendProp property p) acc) from rfl] at he
        rcases ihg hsub' property (flattenRec v (extendProp property p) acc) e he with h | h
        · have hkp : goodKey p := hkeys (p, v) hpv
          have hne : extendProp property p ≠ "" := extendProp_ne_empty property hkp.1
          rcases (ih (p, v) hpv).1 (extendProp property p) acc e hne h with h' | ⟨chain, leaf, hch, heq⟩
          · exact Or.inl h'
          · exact Or.inr ⟨p, v, chain, leaf, hpv, hch, by rw [joinProp_cons]; exact heq⟩
        · exact Or.inr h
    refine ⟨fun property acc e hprop he => ?_, fun fs' hfs' => by cases hfs'; exact hΨ⟩
    cases fs with
    | nil =>
      rw [flattenRec_obj_nil hprop] at he
      rcases mem_insertAssoc he with h | h
      · exact Or.inl h
      · exact Or.inr ⟨[], .obj [], Chains.emptyObj, h⟩
    | cons f fs' =>
      rw [flattenRec_obj_cons] at he
      rcases hΨ (f :: fs') (fun kv h => h) property acc e he with h | ⟨k, v, chain, leaf, hmem, hch, heq⟩
      · exact Or.inl h
      · exact Or.inr ⟨k :: chain, leaf, Chains.step _ k v leaf chain hmem hch, heq⟩

/-- Walking the segment chain of a `Chains` derivation over a well-keyed
value reaches its leaf. -/
theorem walkKeys_of_chains {o : Value} {chain : List String} {leaf : Value}
    (hc : Chains o chain leaf) : GoodVal o → walkKeys chain o = some leaf := by
  induction hc with
  | term v hv => intro _; rfl
  | emptyObj => intro _; rfl
  | step fs k v leaf chain hmem hch ih =>
    intro hg
    cases hg with
    | prim _ hv => exact absurd rfl (hv fs)
    | objGood _ hkeys hvals hnd =>
      have hfind : assocFind fs k = some v := assocFind_eq_of_mem_nodup hmem hnd
      have hguard : ((Value.obj fs).isTypeofObject && !(Value.obj fs).isNull
          && (Value.obj fs).hasOwn k) = true := by
        simp [Value.isTypeofObject, Value.isNull, Value.hasOwn, hfind]
      rw [walkKeys, if_pos hguard]
      rw [show (Value.obj fs).getOwn k = assocFind fs k from rfl, hfind]
      exact ih (hvals (k, v) hmem)

/-- Resolving the dotted join of a non-empty key chain of a well-keyed
object returns the chain's leaf. -/
theorem objectPath_of_chains {fs : List (String × Value)} {k : String} {chain : List String} {leaf : Value}
    (hg : GoodVal (.obj fs)) (hc : Chains (.obj fs) (k :: chain) leaf) :
    objectPath (.obj fs) (joinProp k chain) = some leaf := by
  have hkeysgood : ∀ x ∈ k :: chain, goodKey x := chains_keys_good hc hg
  have hk : goodKey k := hkeysgood k (List.mem_cons_self _ _)
  have hchgood : ∀ x ∈ chain, goodKey x := fun x hx => hkeysgood x (List.mem_cons_of_mem _ hx)
  obtain ⟨hkeys, hvals, hnd⟩ : (∀ kv ∈ fs, goodKey kv.1) ∧ (∀ kv ∈ fs, GoodVal kv.2)
      ∧ (fs.map Prod.fst).Nodup := by
    cases hg with
    | prim _ hv => exact absurd rfl (hv fs)
    | objGood _ h1 h2 h3 => exact ⟨h1, h2, h3⟩
  obtain ⟨v, hmem, hch⟩ : ∃ v, (k, v) ∈ fs ∧ Chains v chain leaf := by
    cases hc with
    | step _ _ v _ _ hmem hch => exact ⟨v, hmem, hch⟩
  cases chain with
  | nil =>
    have hpath : joinProp k [] = k := rfl
    rw [hpath]
    have hfind : assocFind fs k = some v := assocFind_eq_of_mem_nodup hmem hnd
    have hown : (Value.obj fs).hasOwn k = true := by simp [Value.hasOwn, hfind]
    rw [objectPath, if_pos hown]
    rw [show (Value.obj fs).getOwn k = assocFind fs k from rfl, hfind, chains_nil_eq hch]
  | cons c ch =>
    have hc' : goodKey c := hchgood c (List.mem_cons_self _ _)
    have hdotmem : '.' ∈ (joinProp k (c :: ch)).toList := by
      rw [joinProp_head hk.1 hc'.1, toList_dotAppend]
      exact List.mem_append.mpr (Or.inr (List.mem_cons_self _ _))
    have hown : (Value.obj fs).hasOwn (joinProp k (c :: ch)) = false := by
      show (assocFind fs (joinProp k (c :: ch))).isSome = false
      cases hfind : assocFind fs (joinProp k (c :: ch)) with
      | none => rfl
      | some w =>
        have hm := assocFind_some_mem hfind
        exact absurd hdotmem (hkeys _ hm).2.1
    rw [objectPath, if_neg (by rw [hown]; exact Bool.false_ne_true)]
    rw [pathKeys_joinProp hk hchgood]
    rw [show shallowCopy (.obj fs) = .obj fs from rfl]
    exact walkKeys_of_chains hc hg

/-- C5 amended: for every nested input object all of whose keys, at every
object level, are non-empty, dot-free, bracket-free and unique, resolving
each path produced by flattening against the original object returns the
recorded leaf value. (The unrestricted claim fails: a nested key containing
a dot produces a path the resolver reinterprets, see the counterexample.) -/
theorem c5_flatten_resolve_roundtrip (fs : List (String × Value))
    (hg : GoodVal (.obj fs)) :
    ∀ e ∈ flattenObject (.obj fs), objectPath (.obj fs) e.1 = some e.2 := by
  intro e he
  have htr : (Value.obj fs).truthy = true := rfl
  rw [flattenObject, if_pos htr] at he
  cases fs with
  | nil => exact absurd he (by rw [show flattenRec (.obj []) "" [] = [] from rfl]; simp)
  | cons f fs' =>
    rw [flattenRec_obj_cons] at he
    rcases (flattenRec_mem_structure hg).2 (f :: fs') rfl (f :: fs') (fun kv h => h) "" [] e he with
      h | ⟨k, v, chain, leaf, hmem, hch, heq⟩
    · cases h
    · have hjoin : joinProp "" (k :: chain) = joinProp k chain := by
        rw [joinProp_cons]
        rfl
      rw [heq, hjoin]
      exact objectPath_of_chains hg (Chains.step _ k v leaf chain hmem hch)

/-- C5 witness: the round-trip theorem applied to the concrete input
`{foo: {bar: 1}}` and its produced path `foo.bar`. -/
theorem c5_flatten_resolve_roundtrip_witness :
    objectPath (.obj [("foo", .obj [("bar", .vNum 1)])]) "foo.bar" = some (.vNum 1) := by
  have hinner : GoodVal (.obj [("bar", Value.vNum 1)]) := by
    refine GoodVal.objGood _ (fun kv h => ?_) (fun kv h => ?_) (by simp)
    · rcases List.mem_singleton.mp h with rfl
      exact ⟨by decide, by decide, by decide⟩
    · rcases List.mem_singleton.mp h with rfl
      exact GoodVal.prim _ (fun fs h => Value.noConfusion h)
  have hg : GoodVal (.obj [("foo", Value.obj [("bar", Value.vNum 1)])]) := by
    refine GoodVal.objGood _ (fun kv h => ?_) (fun kv h => ?_) (by simp)
    · rcases List.mem_singleton.mp h with rfl
      exact ⟨by decide, by decide, by decide⟩
    · rcases List.mem_singleton.mp h with rfl
      exact hinner
  have hmem : ("foo.bar", Value.vNum 1) ∈ flattenObject (.obj [("foo", Value.obj [("bar", Value.vNum 1)])]) := by
    rw [show flattenObject (.obj [("foo", Value.obj [("bar", Value.vNum 1)])])
        = [("foo.bar", Value.vNum 1)] from rfl]
    exact List.mem_singleton.mpr rfl
  exact c5_flatten_resolve_roundtrip _ hg ("foo.bar", Value.vNum 1) hmem

/-- C5 counterexample: flattening `{a: {"b.c": 1}}` records the leaf `1`
under the path `a.b.c`, but resolving `a.b.c` against the original object
returns the absent sentinel (the walk splits the dotted key), so the
unrestricted round-trip claim is false. -/
theorem c5_counterexample :
    flattenObject (.obj [("a", .obj [("b.c", .vNum 1)])]) = [("a.b.c", .vNum 1)] ∧
    objectPath (.obj [("a", .obj [("b.c", .vNum 1)])]) "a.b.c" = none ∧
    ¬ objectPath (.obj [("a", .obj [("b.c", .vNum 1)])]) "a.b.c" = some (.vNum 1) :=
  ⟨rfl, rfl, fun h => Option.noConfusion (show (none : Option Value) = some (.vNum 1) from h)⟩

/-! Rule normalization (`_parseRules` and helpers). -/

/-- A rule parameter value as the engine sees it: a string (from
`name:value` tokens), an array (map-form rule specs), or a number. -/
inductive RuleVal where
  | vstr (s : String)
  | varr (ss : List String)
  | vnum (n : Int)
deriving DecidableEq

/-- One parsed rule instance `{name, value}` of the canonical rule map. -/
structure RuleSpec where
  name : String
  value : Option RuleVal
deriving DecidableEq

/-- JavaScript truthiness of `rule.value` (line 247): absent and the
empty string are falsy; arrays are truthy; numbers are truthy unless
zero. -/
def ruleValTruthy : Option RuleVal → Bool
  | none => false
  | some (.vstr s) => !(s == "")
  | some (.varr _) => true
  | some (.vnum n) => n != 0

/-- First index of a character, `indexOf` style. -/
def charIndexOf (c : Char) : List Char → Option Nat
  | [] => none
  | x :: rest => if x = c then some 0 else (charIndexOf c rest).map (· + 1)

/-- Replace the first `*` of `l` by `rep` (the `indexOf`/`substr` splice
at line 276, and `attribute.replace('*', n)` at line 229); unchanged when
no `*` occurs. -/
def replaceStarL (l rep : List Char) : List Char :=
  match l with
  | [] => []
  | x :: rest => if x = '*' then rep ++ rest else x :: replaceStarL rest rep

/-- Replace the first `*` of `s` by the decimal representation of `n`. -/
def replaceStarNum (s : String) (n : Nat) : String :=
  String.mk (replaceStarL s.toList (decRepr n).toList)

/-- `_replaceWildCards` (lines 261-283): with no bindings the value is
returned unchanged; a string value has one `*` replaced per binding, left
to right (a binding finding no `*` leaves the value as is); an array
value has the substitutions applied to its head element and is returned
as an array. A numeric value is returned unchanged here (the source would
raise a TypeError calling `.indexOf` on a number; no claim reaches that
case, which requires a map-form numeric rule value under a wildcard). -/
def replaceWildCards : RuleVal → Option (List Nat) → RuleVal
  | v, none => v
  | .vstr s, some nums => .vstr (nums.foldl replaceStarNum s)
  | .varr [], some _ => .varr []
  | .varr (h :: t), some nums => .varr (nums.foldl replaceStarNum h :: t)
  | .vnum n, some _ => .vnum n

/-- `_replaceWildCardsMessages` (lines 285-296): for each custom-message
key in the snapshot taken by `Object.keys`, add an entry under the key
with its `*`s bound to the indices; each read goes to the current map
since the source mutates the object it iterates. With no bindings the map
is unchanged. -/
def replaceWildCardsMessages (custom : List (String × String)) :
    Option (List Nat) → List (String × String)
  | none => custom
  | some nums =>
    (custom.map Prod.fst).foldl
      (fun acc key =>
        match assocFind acc key with
        | some msgv => insertAssoc acc (nums.foldl replaceStarNum key) msgv
        | none => acc)
      custom

/-- `_extractRuleAndRuleValue` (lines 339-352): split `name:value` on the
first colon, the value being everything after it (`split(':')` then
`slice(1).join(':')`); no colon means no value. -/
def extractRuleAndRuleValue (ruleString : String) : RuleSpec :=
  match jsSplitChar ':' ruleString with
  | [_] => { name := ruleString, value := none }
  | n :: rest => { name := n, value := some (.vstr (String.intercalate ":" rest)) }
  | [] => { name := ruleString, value := none }

/-- A raw element of a rules array before extraction: either a plain
string token or an already shaped `{name, value}` object. -/
inductive RawRule where
  | str (s : String)
  | shaped (r : RuleSpec)

/-- Conversion of a JS value found as a rule parameter into a `RuleVal`.
Array elements that are not strings are outside the claims' scope and are
dropped from the parameter list. -/
def toRuleVal : Value → Option RuleVal
  | .vStr s => some (.vstr s)
  | .vNum n => some (.vnum n)
  | .arr xs => some (.varr (xs.filterMap (fun x =>
      match x with
      | .vStr s => some s
      | _ => none)))
  | _ => none

/-- `_prepareRulesArray` (lines 303-320): objects contribute one
`{name, value}` per key; strings pass through; arrays (also
`typeof 'object'`) enumerate their index keys under `for..in`; `null`
enumerates nothing; other primitives are pushed as-is and later used as a
shaped rule with no usable name. -/
def prepareRulesArray (xs : List Value) : List RawRule :=
  xs.flatMap (fun x =>
    match x with
    | .obj fields => fields.map (fun kv => .shaped { name := kv.1, value := toRuleVal kv.2 })
    | .arr ys => ys.mapIdx (fun i y => RawRule.shaped { name := decRepr i, value := toRuleVal y })
    | .vStr s => [.str s]
    | .vNull => []
    | v => [.shaped { name := "", value := toRuleVal v }])

/-- The `rulesArray` normalization at the top of `_parseRulesDefault`
(lines 237-243): arrays go through `_prepareRulesArray`, strings split on
`|`, anything else yields no iterable rule tokens (its `.length` is
absent, so the loop body never runs). -/
def toRawRules : Value → List RawRule
  | .arr xs => prepareRulesArray xs
  | .vStr s => (jsSplitChar '|' s).map .str
  | _ => []

/-- Modelled from the spec: the external rule catalog (`rules.js` is
required by `src/validator.js` but absent from the sources), per §9 an
explicit mapping from rule-name string to a predicate descriptor
`{implicit, async, handler}` (§6: the handler receives the resolved value
and the raw parameter and reports pass/fail; sync-vs-async and implicit
membership come from registration metadata, not the function). -/
structure RuleDef where
  isImplicitRule : Bool
  isAsyncRule : Bool
  validate : Option Value → Option RuleVal → Bool

/-- Modelled from the spec (§6, §9): the engine-visible configuration —
the rule registry plus the external message-catalog pieces the Messages
class reads (localized templates, the generic default template, localized
attribute display names, and the attribute formatter). -/
structure Config where
  registry : List (String × RuleDef)
  messagesMap : List (String × String)
  messagesDef : String
  messagesAttributes : List (String × String)
  attributeFormatter : String → String

/-- `Rules.make` / registry lookup (spec §9). -/
def getRuleDef (cfg : Config) (name : String) : Option RuleDef :=
  assocFind cfg.registry name

/-- `Rules.isAsync` consulted at line 252, via the registry. -/
def isAsyncName (cfg : Config) (name : String) : Bool :=
  match getRuleDef cfg name with
  | some rd => rd.isAsyncRule
  | none => false

/-- `Rules.isImplicit` consulted by `_isValidatable` (line 393). -/
def isImplicitName (cfg : Config) (name : String) : Bool :=
  match getRuleDef cfg name with
  | some rd => rd.isImplicitRule
  | none => false

/-- The mutable pieces `_parseRules` threads: the canonical rule map
under construction, the validator's custom messages (rebound in place by
`_replaceWildCardsMessages`), and the `hasAsync` flag. -/
structure ParseState where
  parsed : List (String × List RuleSpec)
  custom : List (String × String)
  hasAsync : Bool

/-- The extraction step of the rule loop (line 246): string tokens go
through `_extractRuleAndRuleValue`, shaped objects pass through. -/
def rawToRule : RawRule → RuleSpec
  | .str s => extractRuleAndRuleValue s
  | .shaped r => r

/-- The per-rule substitution of `_parseRulesDefault` (lines 247-250): a
truthy value has the wildcard bindings substituted in. -/
def oneRuleOf (wild : Option (List Nat)) (raw : RawRule) : RuleSpec :=
  let rule := rawToRule raw
  if ruleValTruthy rule.value then
    match rule.value with
    | some v => { rule with value := some (replaceWildCards v wild) }
    | none => rule
  else rule

/-- The per-rule custom-message rebinding of `_parseRulesDefault` (line
249), performed exactly when the rule value is truthy. -/
def oneRuleCustom (wild : Option (List Nat)) (raw : RawRule)
    (custom : List (String × String)) : List (String × String) :=
  if ruleValTruthy (rawToRule raw).value then replaceWildCardsMessages custom wild
  else custom

/-- One iteration of the rule loop of `_parseRulesDefault` (lines
245-256): extract the rule, substitute wildcard bindings into a truthy
value and rebind the custom-message keys, flag async rules (the rule name
is untouched by substitution), append. -/
def parseOneRule (cfg : Config) (wild : Option (List Nat))
    (acc : List RuleSpec × List (String × String) × Bool) (raw : RawRule) :
    List RuleSpec × List (String × String) × Bool :=
  (acc.1 ++ [oneRuleOf wild raw], oneRuleCustom wild raw acc.2.1,
    acc.2.2 || isAsyncName cfg (oneRuleOf wild raw).name)

/-- `_parseRulesDefault` (lines 234-259). -/
def parseRulesDefault (cfg : Config) (attr : String) (rulesArray : Value)
    (st : ParseState) (wild : Option (List Nat)) : ParseState :=
  let folded := (toRawRules rulesArray).foldl (parseOneRule cfg wild) ([], st.custom, st.hasAsync)
  { parsed := insertAssoc st.parsed attr folded.1
    custom := folded.2.1
    hasAsync := folded.2.2 }

/-- `attribute.substr(0, attribute.indexOf('*') - 1)` (line 222): the
input path probed before expanding the first `*`; the `- 1` drops the
dot separating it from the star (JS clamps a negative length to zero, as
Nat subtraction does). -/
def wildcardParent (attr : String) : String :=
  match charIndexOf '*' attr.toList with
  | some idx => String.mk (attr.toList.take (idx - 1))
  | none => attr

/-- A character JavaScript's `ToNumber` trims around a numeric string. -/
def jsSpace (c : Char) : Bool :=
  c == ' ' || c == '\t' || c == '\n' || c == '\r'

def decCharVal (c : Char) : Option Nat :=
  if '0' ≤ c ∧ c ≤ '9' then some (c.toNat - 48) else none

def parseDecCore : List Char → Nat → Option Nat
  | [], acc => some acc
  | c :: rest, acc =>
    match decCharVal c with
    | some d => parseDecCore rest (acc * 10 + d)
    | none => none

/-- A non-empty run of decimal digits, else no number. -/
def parseDecDigits : List Char → Option Nat
  | [] => none
  | cs => parseDecCore cs 0

/-- JavaScript string-to-number coercion, `none` standing for `NaN`:
trimmed-empty is `0`, an optionally signed decimal integer is its value,
anything else is `NaN`. The model's numbers are integers (`vNum : Int`),
so the fractional, exponent and hexadecimal string forms lie outside the
embedding. -/
def jsStrToNumber (s : String) : Option Int :=
  let cs := ((s.toList.dropWhile jsSpace).reverse.dropWhile jsSpace).reverse
  match cs with
  | [] => some 0
  | '-' :: rest => (parseDecDigits rest).map (fun n => -(n : Int))
  | '+' :: rest => (parseDecDigits rest).map (fun n => (n : Int))
  | cs' => (parseDecDigits cs').map (fun n => (n : Int))

/-- JavaScript string coercion of a signed integer. -/
def intRepr (n : Int) : String :=
  if n < 0 then "-" ++ decRepr n.natAbs else decRepr n.toNat

mutual
/-- `Array.prototype.toString` (a comma join, `null` elements blank),
the primitive an array becomes under JavaScript's coercing comparison. -/
def jsValueJoinStr : Value → String
  | .vNull => ""
  | .vBool b => if b then "true" else "false"
  | .vNum n => intRepr n
  | .vStr s => s
  | .obj _ => "[object Object]"
  | .arr xs => jsListJoinStr xs
def jsListJoinStr : List Value → String
  | [] => ""
  | [x] => jsValueJoinStr x
  | x :: rest => jsValueJoinStr x ++ "," ++ jsListJoinStr rest
end

/-- JavaScript `ToNumber` of a possibly-absent value, `none` standing
for `NaN`: `undefined` is `NaN`, `null` is `0`, booleans are `1`/`0`,
strings parse numerically, a plain object is `NaN` (its primitive form
`"[object Object]"` is non-numeric), an array is the number its comma
join parses to. -/
def jsToNumber : Option Value → Option Int
  | none => none
  | some .vNull => some 0
  | some (.vBool b) => some (if b then 1 else 0)
  | some (.vNum n) => some n
  | some (.vStr s) => jsStrToNumber s
  | some (.obj _) => none
  | some (.arr xs) => jsStrToNumber (jsListJoinStr xs)

/-- The loop bound `propertyValue.length` (line 226): an array's length,
a string's length; an object's own `length` field coerced numerically by
the JS `<` comparison (so `{length: "2"}` yields two iterations,
`{length: true}` one), with `NaN` and negative bounds yielding none.
Any other truthy parent has an `undefined` `length`, so the comparison
with `NaN` is false and no iteration runs. -/
def jsLengthNat : Value → Nat
  | .arr elems => elems.length
  | .vStr s => s.length
  | .obj fields => ((jsToNumber (assocFind fields "length")).getD 0).toNat
  | _ => 0

/-- Truthiness of the resolved parent (`if (propertyValue)`, line 225)
over the absent-capable resolve result. -/
def optTruthy : Option Value → Bool
  | none => false
  | some v => v.truthy

/-- Number of `*` characters remaining in a path (termination measure of
the wildcard expansion: each bound index removes one star). -/
def countStars (s : String) : Nat := s.toList.count '*'

theorem decDigitChar_ne_star (d : Nat) : decDigitChar d ≠ '*' := by
  unfold decDigitChar
  split <;> decide

theorem star_not_mem_decDigitsCore (fuel n : Nat) : '*' ∉ decDigitsCore fuel n := by
  induction fuel generalizing n with
  | zero =>
    intro h
    exact decDigitChar_ne_star n (List.mem_singleton.mp h).symm
  | succ f ih =>
    intro h
    unfold decDigitsCore at h
    split at h
    · exact decDigitChar_ne_star n (List.mem_singleton.mp h).symm
    · rcases List.mem_append.mp h with h | h
      · exact ih _ h
      · exact decDigitChar_ne_star _ (List.mem_singleton.mp h).symm

theorem star_not_mem_decRepr (n : Nat) : '*' ∉ (decRepr n).toList :=
  star_not_mem_decDigitsCore n n

theorem charIndexOf_isSome_mem {c : Char} {l : List Char}
    (h : (charIndexOf c l).isSome = true) : c ∈ l := by
  induction l with
  | nil => cases h
  | cons x rest ih =>
    by_cases hx : x = c
    · exact hx ▸ List.mem_cons_self x rest
    · refine List.mem_cons_of_mem _ (ih ?_)
      unfold charIndexOf at h
      rw [if_neg hx] at h
      cases hfind : charIndexOf c rest with
      | none => rw [hfind] at h; cases h
      | some i => rfl

theorem count_star_replaceStarL {l : List Char} (rep : List Char)
    (hst : '*' ∈ l) (hrep : '*' ∉ rep) :
    (replaceStarL l rep).count '*' < l.count '*' := by
  induction l with
  | nil => cases hst
  | cons x rest ih =>
    have hunf : replaceStarL (x :: rest) rep
        = if x = '*' then rep ++ rest else x :: replaceStarL rest rep := rfl
    by_cases hx : x = '*'
    · subst hx
      rw [hunf, if_pos rfl]
      rw [List.count_append, List.count_cons_self,
        List.count_eq_zero.mpr hrep]
      omega
    · rw [hunf, if_neg hx]
      have hst' : '*' ∈ rest := by
        rcases List.mem_cons.mp hst with h | h
        · exact absurd h.symm hx
        · exact h
      have hne : ('*' : Char) ≠ x := fun he => hx he.symm
      rw [List.count_cons_of_ne hne, List.count_cons_of_ne hne]
      exact ih hst'

theorem countStars_replaceStarNum_lt {attr : String} (n : Nat)
    (h : (charIndexOf '*' attr.toList).isSome = true) :
    countStars (replaceStarNum attr n) < countStars attr := by
  unfold countStars replaceStarNum
  show (String.mk (replaceStarL attr.toList (decRepr n).toList)).toList.count '*' < _
  rw [show (String.mk (replaceStarL attr.toList (decRepr n).toList)).toList
      = replaceStarL attr.toList (decRepr n).toList from rfl]
  exact count_star_replaceStarL _ (charIndexOf_isSome_mem h) (star_not_mem_decRepr n)

mutual
/-- `_parseRulesCheck` (lines 213-219): dispatch on whether the attribute
path still contains a `*`. -/
def parseRulesCheck (cfg : Config) (input : Value) (attr : String) (rulesArray : Value)
    (st : ParseState) (wild : Option (List Nat)) : ParseState :=
  if (charIndexOf '*' attr.toList).isSome then
    parsedRulesRecurse cfg input attr rulesArray st wild
  else
    parseRulesDefault cfg attr rulesArray st wild
termination_by (countStars attr, 2, 0)

/-- `_parsedRulesRecurse` (lines 221-232): resolve the path before the
first `*`; when truthy, iterate its `length` indices. -/
def parsedRulesRecurse (cfg : Config) (input : Value) (attr : String) (rulesArray : Value)
    (st : ParseState) (wild : Option (List Nat)) : ParseState :=
  let propertyValue := objectPath input (wildcardParent attr)
  if optTruthy propertyValue then
    wildcardLoop cfg input attr rulesArray st wild 0 (jsLengthNat (propertyValue.getD .vNull))
  else st
termination_by (countStars attr, 1, 0)

/-- The index loop of `_parsedRulesRecurse` (lines 226-230): extend the
binding with the index and re-check the path with its first `*` bound.
The inner star test always succeeds at reachable calls (the loop is only
entered from a starred path) and only serves the termination measure. -/
def wildcardLoop (cfg : Config) (input : Value) (attr : String) (rulesArray : Value)
    (st : ParseState) (wild : Option (List Nat)) (i len : Nat) : ParseState :=
  if hlt : i < len then
    let working := (wild.getD []) ++ [i]
    let st' :=
      if hstar : (charIndexOf '*' attr.toList).isSome then
        parseRulesCheck cfg input (replaceStarNum attr i) rulesArray st (some working)
      else st
    wildcardLoop cfg input attr rulesArray st' wild (i + 1) len
  else st
termination_by (countStars attr, 0, len - i)
decreasing_by
  · exact Prod.Lex.left _ _ (countStars_replaceStarNum_lt i hstar)
  · apply Prod.Lex.right
    apply Prod.Lex.right
    omega
end

/-- `_parseRules` (lines 201-211): flatten the rule specification and
normalize each flattened entry into the canonical rule map. -/
def parseRules (cfg : Config) (input : Value) (rulesSpec : Value)
    (custom : List (String × String)) : ParseState :=
  (flattenObject rulesSpec).foldl
    (fun st kv => parseRulesCheck cfg input kv.1 kv.2 st none)
    { parsed := [], custom := custom, hasAsync := false }

/-- `stopOnError` configuration (lines 407-418, 456-458): `undefined`, a
boolean, or a list of attribute paths. -/
inductive StopSetting where
  | undef
  | flag (b : Bool)
  | attrs (names : List String)

/-- The validator instance state the engine reads and mutates. -/
structure VState where
  input : Value
  rules : List (String × List RuleSpec)
  customMessages : List (String × String)
  attributeNames : List (String × String)
  stopOnAttributes : StopSetting
  errors : List (String × String)
  errorCount : Nat
  hasAsync : Bool

/-- The `Validator` constructor (lines 8-24): default a falsy input to
`{}`, seed the custom messages, parse the rules (which may rebind
custom-message keys and set `hasAsync`), start with an empty error
collection. The error collector is modelled from the spec (`errors.js`
is absent from the sources): §6, it accepts `(attribute, message)` pairs
in the order produced and the engine treats it as append-only. -/
def mkValidator (cfg : Config) (input rulesSpec : Value)
    (customMessages : List (String × String)) : VState :=
  let input' := if input.truthy then input else .obj []
  let ps := parseRules cfg input' rulesSpec customMessages
  { input := input'
    rules := ps.parsed
    customMessages := ps.custom
    attributeNames := []
    stopOnAttributes := .undef
    errors := []
    errorCount := 0
    hasAsync := ps.hasAsync }

/-- `stopOnError` (lines 456-458). -/
def stopOnError (v : VState) (setting : StopSetting) : VState :=
  { v with stopOnAttributes := setting }

/-! Characterization lemmas for the rule-normalization pipeline. -/

/-- The rule sequence `_parseRulesDefault` builds for one attribute. -/
def ruleListOf (wild : Option (List Nat)) (rulesArray : Value) : List RuleSpec :=
  (toRawRules rulesArray).map (oneRuleOf wild)

theorem foldl_parseOneRule_fst (cfg : Config) (wild : Option (List Nat)) (raws : List RawRule) :
    ∀ (l : List RuleSpec) (c : List (String × String)) (b : Bool),
      (raws.foldl (parseOneRule cfg wild) (l, c, b)).1 = l ++ raws.map (oneRuleOf wild) := by
  induction raws with
  | nil => intro l c b; simp
  | cons r rest ih =>
    intro l c b
    rw [List.foldl_cons, show parseOneRule cfg wild (l, c, b) r
      = (l ++ [oneRuleOf wild r], oneRuleCustom wild r c,
          b || isAsyncName cfg (oneRuleOf wild r).name) from rfl, ih]
    simp

theorem foldl_parseOneRule_custom (cfg : Config) (wild : Option (List Nat)) (raws : List RawRule) :
    ∀ (l : List RuleSpec) (c : List (String × String)) (b : Bool),
      (raws.foldl (parseOneRule cfg wild) (l, c, b)).2.1
        = raws.foldl (fun cu raw => oneRuleCustom wild raw cu) c := by
  induction raws with
  | nil => intro l c b; rfl
  | cons r rest ih =>
    intro l c b
    rw [List.foldl_cons, show parseOneRule cfg wild (l, c, b) r
      = (l ++ [oneRuleOf wild r], oneRuleCustom wild r c,
          b || isAsyncName cfg (oneRuleOf wild r).name) from rfl, ih]
    rfl

theorem parseRulesDefault_parsed (cfg : Config) (attr : String) (rulesArray : Value)
    (st : ParseState) (wild : Option (List Nat)) :
    (parseRulesDefault cfg attr rulesArray st wild).parsed
      = insertAssoc st.parsed attr (ruleListOf wild rulesArray) := by
  unfold parseRulesDefault ruleListOf
  show insertAssoc st.parsed attr
      ((toRawRules rulesArray).foldl (parseOneRule cfg wild) ([], st.custom, st.hasAsync)).1 = _
  rw [show ((toRawRules rulesArray).foldl (parseOneRule cfg wild) ([], st.custom, st.hasAsync)).1
      = [] ++ (toRawRules rulesArray).map (oneRuleOf wild) from
    foldl_parseOneRule_fst cfg wild (toRawRules rulesArray) [] st.custom st.hasAsync]
  rfl

theorem parseRulesDefault_custom (cfg : Config) (attr : String) (rulesArray : Value)
    (st : ParseState) (wild : Option (List Nat)) :
    (parseRulesDefault cfg attr rulesArray st wild).custom
      = (toRawRules rulesArray).foldl (fun cu raw => oneRuleCustom wild raw cu) st.custom := by
  unfold parseRulesDefault
  show ((toRawRules rulesArray).foldl (parseOneRule cfg wild) ([], st.custom, st.hasAsync)).2.1 = _
  rw [foldl_parseOneRule_custom cfg wild (toRawRules rulesArray) [] st.custom st.hasAsync]

theorem parseRulesCheck_no_star {attr : String}
    (h : (charIndexOf '*' attr.toList).isSome = false)
    (cfg : Config) (input rulesArray : Value) (st : ParseState) (wild : Option (List Nat)) :
    parseRulesCheck cfg input attr rulesArray st wild
      = parseRulesDefault cfg attr rulesArray st wild := by
  rw [parseRulesCheck.eq_def, h]
  simp

theorem parseRulesCheck_star {attr : String}
    (h : (charIndexOf '*' attr.toList).isSome = true)
    (cfg : Config) (input rulesArray : Value) (st : ParseState) (wild : Option (List Nat)) :
    parseRulesCheck cfg input attr rulesArray st wild
      = parsedRulesRecurse cfg input attr rulesArray st wild := by
  rw [parseRulesCheck.eq_def, h]
  simp

theorem parsedRulesRecurse_falsy {input : Value} {attr : String}
    (h : optTruthy (objectPath input (wildcardParent attr)) = false)
    (cfg : Config) (rulesArray : Value) (st : ParseState) (wild : Option (List Nat)) :
    parsedRulesRecurse cfg input attr rulesArray st wild = st := by
  rw [parsedRulesRecurse.eq_def]
  simp [h]

theorem parsedRulesRecurse_truthy {input : Value} {attr : String}
    (h : optTruthy (objectPath input (wildcardParent attr)) = true)
    (cfg : Config) (rulesArray : Value) (st : ParseState) (wild : Option (List Nat)) :
    parsedRulesRecurse cfg input attr rulesArray st wild
      = wildcardLoop cfg input attr rulesArray st wild 0
          (jsLengthNat ((objectPath input (wildcardParent attr)).getD .vNull)) := by
  rw [parsedRulesRecurse.eq_def]
  simp [h]

theorem wildcardLoop_done {i len : Nat} (h : ¬ i < len)
    (cfg : Config) (input : Value) (attr : String) (rulesArray : Value)
    (st : ParseState) (wild : Option (List Nat)) :
    wildcardLoop cfg input attr rulesArray st wild i len = st := by
  rw [wildcardLoop.eq_def]
  simp [h]

theorem wildcardLoop_step {attr : String} {i len : Nat}
    (hstar : (charIndexOf '*' attr.toList).isSome = true) (hlt : i < len)
    (cfg : Config) (input rulesArray : Value) (st : ParseState) (wild : Option (List Nat)) :
    wildcardLoop cfg input attr rulesArray st wild i len
      = wildcardLoop cfg input attr rulesArray
          (parseRulesCheck cfg input (replaceStarNum attr i) rulesArray st
            (some ((wild.getD []) ++ [i])))
          wild (i + 1) len := by
  have hstar' : (charIndexOf '*' attr.data).isSome = true := hstar
  rw [wildcardLoop.eq_def]
  simp [hlt, hstar, hstar']

/-! Injectivity of the decimal index substitution. -/

/-- Valuation of a decimal digit list (proof device). -/
def digitsVal (l : List Char) : Nat := l.foldl (fun acc c => acc * 10 + (c.toNat - 48)) 0

theorem digitsVal_append_digit (l : List Char) (c : Char) :
    digitsVal (l ++ [c]) = digitsVal l * 10 + (c.toNat - 48) := by
  unfold digitsVal
  rw [List.foldl_append]
  rfl

theorem decDigitChar_toNat : ∀ d, d < 10 → (decDigitChar d).toNat = 48 + d := by decide

theorem digitsVal_decDigitsCore : ∀ fuel n, n ≤ fuel → digitsVal (decDigitsCore fuel n) = n := by
  intro fuel
  induction fuel with
  | zero =>
    intro n hn
    have : n = 0 := Nat.le_zero.mp hn
    subst this
    decide
  | succ f ih =>
    intro n hn
    have hunf : decDigitsCore (f + 1) n
        = if n < 10 then [decDigitChar n]
          else decDigitsCore f (n / 10) ++ [decDigitChar (n % 10)] := rfl
    by_cases h10 : n < 10
    · rw [hunf, if_pos h10]
      show 0 * 10 + ((decDigitChar n).toNat - 48) = n
      rw [decDigitChar_toNat n h10]
      omega
    · rw [hunf, if_neg h10]
      rw [digitsVal_append_digit]
      have hdivlt : n / 10 < n := Nat.div_lt_self (by omega) (by omega)
      rw [ih (n / 10) (by omega)]
      rw [decDigitChar_toNat (n % 10) (Nat.mod_lt n (by omega))]
      omega

theorem decRepr_injective {a b : Nat} (h : decRepr a = decRepr b) : a = b := by
  have hl : decDigits a = decDigits b := congrArg String.toList h
  have ha := digitsVal_decDigitsCore a a (Nat.le_refl a)
  have hb := digitsVal_decDigitsCore b b (Nat.le_refl b)
  rw [show decDigitsCore a a = decDigits a from rfl] at ha
  rw [show decDigitsCore b b = decDigits b from rfl] at hb
  rw [← ha, ← hb, hl]

theorem replaceStarL_inj {l r₁ r₂ : List Char} (hst : '*' ∈ l)
    (h : replaceStarL l r₁ = replaceStarL l r₂) : r₁ = r₂ := by
  induction l with
  | nil => cases hst
  | cons x rest ih =>
    have hu₁ : replaceStarL (x :: rest) r₁
        = if x = '*' then r₁ ++ rest else x :: replaceStarL rest r₁ := rfl
    have hu₂ : replaceStarL (x :: rest) r₂
        = if x = '*' then r₂ ++ rest else x :: replaceStarL rest r₂ := rfl
    by_cases hx : x = '*'
    · rw [hu₁, hu₂, if_pos hx, if_pos hx] at h
      exact List.append_cancel_right h
    · rw [hu₁, hu₂, if_neg hx, if_neg hx] at h
      have hst' : '*' ∈ rest := by
        rcases List.mem_cons.mp hst with h' | h'
        · exact absurd h'.symm hx
        · exact h'
      exact ih hst' (List.cons.injEq .. ▸ h).2

theorem replaceStarNum_inj {p : String} (hst : '*' ∈ p.toList) {i j : Nat}
    (h : replaceStarNum p i = replaceStarNum p j) : i = j := by
  have hl : replaceStarL p.toList (decRepr i).toList
      = replaceStarL p.toList (decRepr j).toList := congrArg String.toList h
  have := replaceStarL_inj hst hl
  exact decRepr_injective (String.ext this)

/-! Star counting. -/

theorem charIndexOf_isSome_of_mem {c : Char} {l : List Char} (h : c ∈ l) :
    (charIndexOf c l).isSome = true := by
  induction l with
  | nil => cases h
  | cons x rest ih =>
    unfold charIndexOf
    by_cases hx : x = c
    · rw [if_pos hx]
      rfl
    · rw [if_neg hx]
      have h' : c ∈ rest := by
        rcases List.mem_cons.mp h with h' | h'
        · exact absurd h'.symm hx
        · exact h'
      have hsome := ih h'
      cases hfind : charIndexOf c rest with
      | none => rw [hfind] at hsome; cases hsome
      | some i => rfl

theorem star_mem_of_countStars_pos {s : String} (h : 0 < countStars s) : '*' ∈ s.toList := by
  by_contra hmem
  unfold countStars at h
  rw [List.count_eq_zero.mpr hmem] at h
  omega

theorem no_star_isSome_false {s : String} (h : countStars s = 0) :
    (charIndexOf '*' s.toList).isSome = false := by
  cases hfind : (charIndexOf '*' s.toList).isSome with
  | false => rfl
  | true =>
    have hmem := charIndexOf_isSome_mem hfind
    have hpos : 0 < countStars s := by
      unfold countStars
      exact List.count_pos_iff.mpr hmem
    omega

theorem count_replaceStarL_sub {l : List Char} (rep : List Char)
    (hst : '*' ∈ l) (hrep : '*' ∉ rep) :
    (replaceStarL l rep).count '*' = l.count '*' - 1 := by
  induction l with
  | nil => cases hst
  | cons x rest ih =>
    have hunf : replaceStarL (x :: rest) rep
        = if x = '*' then rep ++ rest else x :: replaceStarL rest rep := rfl
    by_cases hx : x = '*'
    · subst hx
      rw [hunf, if_pos rfl, List.count_append, List.count_cons_self,
        List.count_eq_zero.mpr hrep]
      omega
    · rw [hunf, if_neg hx]
      have hst' : '*' ∈ rest := by
        rcases List.mem_cons.mp hst with h' | h'
        · exact absurd h'.symm hx
        · exact h'
      have hne : ('*' : Char) ≠ x := fun he => hx he.symm
      rw [List.count_cons_of_ne hne, List.count_cons_of_ne hne, ih hst']

theorem countStars_replaceStarNum_eq {p : String} (hst : '*' ∈ p.toList) (n : Nat) :
    countStars (replaceStarNum p n) = countStars p - 1 := by
  unfold countStars replaceStarNum
  show (replaceStarL p.toList (decRepr n).toList).count '*' = _
  exact count_replaceStarL_sub _ hst (star_not_mem_decRepr n)

theorem assocFind_append (m₁ m₂ : List (String × α)) (k : String) :
    assocFind (m₁ ++ m₂) k
      = match assocFind m₁ k with
        | some v => some v
        | none => assocFind m₂ k := by
  induction m₁ with
  | nil => rfl
  | cons pr rest ih =>
    obtain ⟨k', v⟩ := pr
    have hu1 : assocFind ((k', v) :: (rest ++ m₂)) k
        = if k' = k then some v else assocFind (rest ++ m₂) k := rfl
    have hu2 : assocFind ((k', v) :: rest) k
        = if k' = k then some v else assocFind rest k := rfl
    show assocFind ((k', v) :: (rest ++ m₂)) k = _
    rw [hu1, hu2]
    by_cases hk : k' = k
    · rw [if_pos hk, if_pos hk]
    · rw [if_neg hk, if_neg hk]
      exact ih

theorem foldl_insertAssoc_fresh {α : Type} (key : Nat → String) (val : Nat → α) :
    ∀ (idxs : List Nat) (acc : List (String × α)),
      (∀ a ∈ idxs, ∀ b ∈ idxs, key a = key b → a = b) →
      idxs.Nodup →
      (∀ a ∈ idxs, (assocFind acc (key a)).isSome = false) →
      idxs.foldl (fun m j => insertAssoc m (key j) (val j)) acc
        = acc ++ idxs.map (fun j => (key j, val j)) := by
  intro idxs
  induction idxs with
  | nil => intro acc _ _ _; simp
  | cons j rest ih =>
    intro acc hinj hnd hfresh
    have hjfresh : (assocFind acc (key j)).isSome = false :=
      hfresh j (List.mem_cons_self _ _)
    have hins : insertAssoc acc (key j) (val j) = acc ++ [(key j, val j)] := by
      unfold insertAssoc
      rw [if_neg (by rw [hjfresh]; exact Bool.false_ne_true)]
    rw [List.foldl_cons, hins]
    rw [List.nodup_cons] at hnd
    rw [ih (acc ++ [(key j, val j)])
      (fun a ha b hb => hinj a (List.mem_cons_of_mem _ ha) b (List.mem_cons_of_mem _ hb))
      hnd.2 ?_]
    · simp
    · intro a ha
      rw [assocFind_append]
      rw [show assocFind acc (key a) = none from by
        have := hfresh a (List.mem_cons_of_mem _ ha)
        cases hf : assocFind acc (key a) with
        | none => rfl
        | some w => rw [hf] at this; cases this]
      show (assocFind [(key j, val j)] (key a)).isSome = false
      unfold assocFind
      rw [if_neg ?_]
      · rfl
      · intro heq
        exact hnd.1 (hinj j (List.mem_cons_self _ _) a (List.mem_cons_of_mem _ ha) heq ▸ ha)

/-- The wildcard index loop on a single-star path: each index binds the
star, lands in `_parseRulesDefault`, and records one concrete entry. -/
theorem wildcardLoop_singleStar {attr : String} (hone : countStars attr = 1)
    (cfg : Config) (input rulesArray : Value) (wild : Option (List Nat)) (len : Nat) :
    ∀ (n i : Nat) (st : ParseState), n = len - i →
      (wildcardLoop cfg input attr rulesArray st wild i len).parsed
        = (List.range' i (len - i)).foldl
            (fun m j => insertAssoc m (replaceStarNum attr j)
              (ruleListOf (some ((wild.getD []) ++ [j])) rulesArray)) st.parsed := by
  have hmem : '*' ∈ attr.toList := star_mem_of_countStars_pos (by omega)
  have hsome : (charIndexOf '*' attr.toList).isSome = true := charIndexOf_isSome_of_mem hmem
  intro n
  induction n with
  | zero =>
    intro i st hn
    have hge : ¬ i < len := by omega
    rw [wildcardLoop_done hge, ← hn]
    rfl
  | succ m ih =>
    intro i st hn
    have hlt : i < len := by omega
    rw [wildcardLoop_step hsome hlt]
    have hnostar : (charIndexOf '*' (replaceStarNum attr i).toList).isSome = false := by
      apply no_star_isSome_false
      rw [countStars_replaceStarNum_eq hmem, hone]
    rw [parseRulesCheck_no_star hnostar]
    rw [ih (i + 1) _ (by omega)]
    rw [parseRulesDefault_parsed]
    have hrange : List.range' i (len - i) = i :: List.range' (i + 1) (len - (i + 1)) := by
      rw [show len - i = (len - (i + 1)) + 1 from by omega]
      rfl
    rw [hrange]
    rfl

/-- Flattening a one-entry rules object whose single value is terminal. -/
theorem flattenObject_single_prim {p : String} (hp : p ≠ "") {v : Value}
    (hnotobj : ∀ fs : List (String × Value), v ≠ .obj fs) :
    flattenObject (.obj [(p, v)]) = [(p, v)] := by
  have htr : (Value.obj [(p, v)]).truthy = true := rfl
  rw [flattenObject, if_pos htr, flattenRec_obj_cons]
  show flattenFields [] "" (flattenRec v (extendProp "" p) []) = _
  rw [show flattenFields [] "" (flattenRec v (extendProp "" p) [])
      = flattenRec v (extendProp "" p) [] from rfl]
  rw [show extendProp "" p = p from rfl]
  rw [flattenRec_not_obj hnotobj hp]
  rfl

/-- Parsing a one-entry rules object with a string rule specification. -/
theorem parseRules_single {p : String} (hp : p ≠ "") (cfg : Config) (input : Value)
    (rs : String) (custom : List (String × String)) :
    parseRules cfg input (.obj [(p, .vStr rs)]) custom
      = parseRulesCheck cfg input p (.vStr rs)
          { parsed := [], custom := custom, hasAsync := false } none := by
  unfold parseRules
  rw [flattenObject_single_prim hp (fun fs h => Value.noConfusion h)]
  rfl

/-- C4 amended: for a wildcard rule path with exactly one `*`, (a) when
the prefix before it resolves to an array of length N, normalization
yields exactly the N concrete entries for indices `0..N-1`, each with the
bound index substituted into its truthy rule parameter values; (b) a
resolved string behaves like a sequence of its length (this is where the
original claim fails, a string being a scalar); (c) in general any truthy
resolved value yields entries for indices `0..L-1` where `L` is its
`length` property under the numeric coercion of the JS `<` loop bound —
so `{length: "2"}` expands twice; (d) when the prefix is absent, falsy,
or its coerced `length` bound is zero (no `length`, `NaN`, or a
non-positive number), normalization yields no entries. -/
theorem c4_wildcard_expansion (cfg : Config) (input : Value) (p rs : String)
    (custom : List (String × String)) (hone : countStars p = 1) :
    (∀ xs : List Value, objectPath input (wildcardParent p) = some (.arr xs) →
      (parseRules cfg input (.obj [(p, .vStr rs)]) custom).parsed
        = (List.range xs.length).map (fun j =>
            (replaceStarNum p j, ruleListOf (some [j]) (.vStr rs)))) ∧
    (∀ s : String, objectPath input (wildcardParent p) = some (.vStr s) →
      (parseRules cfg input (.obj [(p, .vStr rs)]) custom).parsed
        = (List.range s.length).map (fun j =>
            (replaceStarNum p j, ruleListOf (some [j]) (.vStr rs)))) ∧
    (∀ v : Value, objectPath input (wildcardParent p) = some v → v.truthy = true →
      (parseRules cfg input (.obj [(p, .vStr rs)]) custom).parsed
        = (List.range (jsLengthNat v)).map (fun j =>
            (replaceStarNum p j, ruleListOf (some [j]) (.vStr rs)))) ∧
    ((∀ v : Value, objectPath input (wildcardParent p) = some v →
        v.truthy = false ∨ jsLengthNat v = 0) →
      (parseRules cfg input (.obj [(p, .vStr rs)]) custom).parsed = []) := by
  have hmem : '*' ∈ p.toList := star_mem_of_countStars_pos (by omega)
  have hsome : (charIndexOf '*' p.toList).isSome = true := charIndexOf_isSome_of_mem hmem
  have hp : p ≠ "" := by
    intro h
    subst h
    cases hmem
  have hmain : ∀ v : Value, objectPath input (wildcardParent p) = some v →
      v.truthy = true →
      (parseRules cfg input (.obj [(p, .vStr rs)]) custom).parsed
        = (List.range (jsLengthNat v)).map (fun j =>
            (replaceStarNum p j, ruleListOf (some [j]) (.vStr rs))) := by
    intro v hv htr
    rw [parseRules_single hp, parseRulesCheck_star hsome,
      parsedRulesRecurse_truthy (by rw [hv]; exact htr)]
    rw [hv]
    rw [wildcardLoop_singleStar hone cfg input (.vStr rs) none
      (jsLengthNat ((some v).getD .vNull)) (jsLengthNat ((some v).getD .vNull) - 0) 0 _ rfl]
    rw [show (Option.getD (some v) Value.vNull) = v from rfl]
    show (List.range' 0 (jsLengthNat v - 0)).foldl _ [] = _
    rw [Nat.sub_zero, ← List.range_eq_range']
    rw [foldl_insertAssoc_fresh
      (fun j => replaceStarNum p j)
      (fun j => ruleListOf (some ((Option.getD (none : Option (List Nat)) []) ++ [j])) (.vStr rs))
      (List.range (jsLengthNat v)) []
      (fun a _ b _ h => replaceStarNum_inj hmem h)
      (List.nodup_range _)
      (fun a _ => rfl)]
    simp
  refine ⟨fun xs hv => ?_, fun s hv => ?_, hmain, fun hnone => ?_⟩
  · exact hmain (.arr xs) hv rfl
  · by_cases hs : s = ""
    · subst hs
      rw [parseRules_single hp, parseRulesCheck_star hsome,
        parsedRulesRecurse_falsy (by rw [hv]; rfl)]
      rfl
    · have htr : (Value.vStr s).truthy = true := by
        show (!(s == "")) = true
        simp [hs]
      exact hmain (.vStr s) hv htr
  · cases hv : objectPath input (wildcardParent p) with
    | none =>
      rw [parseRules_single hp, parseRulesCheck_star hsome,
        parsedRulesRecurse_falsy (by rw [hv]; rfl)]
    | some v =>
      rcases hnone v hv with hfalsy | hlen
      · rw [parseRules_single hp, parseRulesCheck_star hsome,
          parsedRulesRecurse_falsy (by rw [hv]; exact hfalsy)]
      · by_cases htr : v.truthy = true
        · rw [hmain v hv htr, hlen]
          rfl
        · rw [parseRules_single hp, parseRulesCheck_star hsome,
            parsedRulesRecurse_falsy (by rw [hv]; exact Bool.not_eq_true _ ▸ htr)]

/-- Modelled from the spec: the `required` predicate of the external rule
catalog (glossary: an implicit rule that must run even when its target is
absent/empty; §4.3: fails on the absent sentinel and empty values). -/
def sampleRequiredDef : RuleDef :=
  { isImplicitRule := true
    isAsyncRule := false
    validate := fun v _ =>
      match v with
      | none => false
      | some .vNull => false
      | some (.vStr "") => false
      | some (.arr []) => false
      | some _ => true }

/-- Modelled from the spec: the `min` predicate of the external rule
catalog; only its registration metadata (synchronous, non-implicit)
matters to the claims, which never let it run. -/
def sampleMinDef : RuleDef :=
  { isImplicitRule := false
    isAsyncRule := false
    validate := fun _ _ => false }

/-- Modelled from the spec: a concrete configuration for witnesses, with
the two catalog predicates above and a small localized message catalog. -/
def cfgSample : Config :=
  { registry := [("required", sampleRequiredDef), ("min", sampleMinDef)]
    messagesMap := [("required", "The :attribute field is required."),
      ("min", "The :attribute must be at least :min.")]
    messagesDef := "The :attribute attribute has errors."
    messagesAttributes := []
    attributeFormatter := fun s => s }

/-- C4 witness: the amended expansion theorem applied, first, to the
concrete input `{items: [{qty: 0}, {qty: 5}]}` with wildcard rules
`{"items.*.qty": "min:*"}`, yielding two entries with the index bound
into the parameter value; and second, to the non-sequence input
`{items: {length: "2"}}`, whose string `length` field coerces to a loop
bound of two and yields the same two entries. -/
theorem c4_wildcard_expansion_witness :
    (parseRules cfgSample
        (.obj [("items", .arr [.obj [("qty", .vNum 0)], .obj [("qty", .vNum 5)]])])
        (.obj [("items.*.qty", .vStr "min:*")]) []).parsed
      = [("items.0.qty", [⟨"min", some (.vstr "0")⟩]),
         ("items.1.qty", [⟨"min", some (.vstr "1")⟩])] ∧
    (parseRules cfgSample (.obj [("items", .obj [("length", .vStr "2")])])
        (.obj [("items.*.qty", .vStr "min:*")]) []).parsed
      = [("items.0.qty", [⟨"min", some (.vstr "0")⟩]),
         ("items.1.qty", [⟨"min", some (.vstr "1")⟩])] := by
  constructor
  · rw [(c4_wildcard_expansion cfgSample
        (.obj [("items", .arr [.obj [("qty", .vNum 0)], .obj [("qty", .vNum 5)]])])
        "items.*.qty" "min:*" [] (by decide)).1
      [.obj [("qty", .vNum 0)], .obj [("qty", .vNum 5)]] rfl]
    rfl
  · rw [(c4_wildcard_expansion cfgSample
        (.obj [("items", .obj [("length", .vStr "2")])])
        "items.*.qty" "min:*" [] (by decide)).2.2.1
      (.obj [("length", .vStr "2")]) rfl rfl]
    rfl

/-- C4 counterexample: the wildcard prefix `items` resolves to the scalar
string `"ab"` — not a sequence — yet normalization produces two concrete
entries `items.0.qty` and `items.1.qty`, because the source only tests
truthiness and reads a `length` property (validator.js lines 225-226);
the claim says a non-sequence prefix yields no entries. -/
theorem c4_counterexample :
    (parseRules cfgSample (.obj [("items", .vStr "ab")])
        (.obj [("items.*.qty", .vStr "min:1")]) []).parsed
      = [("items.0.qty", [⟨"min", some (.vstr "1")⟩]),
         ("items.1.qty", [⟨"min", some (.vstr "1")⟩])] ∧
    (parseRules cfgSample (.obj [("items", .vStr "ab")])
        (.obj [("items.*.qty", .vStr "min:1")]) []).parsed ≠ [] := by
  have h : (parseRules cfgSample (.obj [("items", .vStr "ab")])
      (.obj [("items.*.qty", .vStr "min:1")]) []).parsed
      = [("items.0.qty", [⟨"min", some (.vstr "1")⟩]),
         ("items.1.qty", [⟨"min", some (.vstr "1")⟩])] := by
    rw [parseRules_single (by decide) cfgSample (.obj [("items", .vStr "ab")]) "min:1" []]
    rw [parseRulesCheck_star (by decide)]
    rw [parsedRulesRecurse_truthy (by decide)]
    rw [show jsLengthNat ((objectPath (.obj [("items", .vStr "ab")])
        (wildcardParent "items.*.qty")).getD .vNull) = 2 from rfl]
    rw [wildcardLoop_step (by decide) (by decide)]
    rw [parseRulesCheck_no_star (by decide)]
    rw [wildcardLoop_step (by decide) (by decide)]
    rw [parseRulesCheck_no_star (by decide)]
    rw [wildcardLoop_done (by decide)]
    rfl
  exact ⟨h, by rw [h]; decide⟩

/-! The Messages renderer (the repository's `Messages` class). -/

/-- Fuel-indexed global substring replacement (`message.replace(new
RegExp(':' + key, 'g'), value)`): left-to-right, non-overlapping, the
replacement text is not rescanned. The fuel only bounds recursion depth
and `jsReplaceAll` always supplies enough. -/
def replaceAllCore (pat rep : List Char) : Nat → List Char → List Char
  | 0, l => l
  | fuel + 1, l =>
    match l with
    | [] => []
    | c :: rest =>
      if pat.isPrefixOf l then rep ++ replaceAllCore pat rep fuel (l.drop pat.length)
      else c :: replaceAllCore pat rep fuel rest

/-- Replace every occurrence of `pat` in `s` by `rep`. -/
def jsReplaceAll (s pat rep : String) : String :=
  String.mk (replaceAllCore pat.toList rep.toList s.toList.length s.toList)

/-- The rule view the Messages renderer consumes: name, concrete
attribute path, raw parameter value, and an optional custom message
attached to the rule object by the external catalog. -/
structure MRule where
  name : String
  attrPath : String
  value : Option RuleVal
  customMessage : Option String

/-- The `for` loop of `_getTemplate` (part_000 lines 105-114): for each
format, a custom message wins, else a localized template, else try the
next format; exhausted formats leave the generic default. -/
def templateLoop (messagesDef : String) (messagesMap customMessages : List (String × String)) :
    List String → String
  | [] => messagesDef
  | f :: rest =>
    match assocFind customMessages f with
    | some t => t
    | none =>
      match assocFind messagesMap f with
      | some t => t
      | none => templateLoop messagesDef messagesMap customMessages rest

/-- `Messages._getTemplate` (part_000 lines 99-121): the probed formats
are `rule.name + '.' + rule.attrPath` then `rule.name`. Object-form
templates (selected through the external `rule._getValueType`) are
outside the embedding: templates are plain strings. -/
def getTemplate (messagesDef : String) (messagesMap customMessages : List (String × String))
    (rule : MRule) : String :=
  templateLoop messagesDef messagesMap customMessages
    [rule.name ++ "." ++ rule.attrPath, rule.name]

/-- The precedence order asserted by the specification (C3), written from
its words: (1) per-attribute-and-rule custom, (2) per-rule custom, (3)
per-attribute-and-rule localized, (4) per-rule localized, (5) default. -/
def claimTemplatePrecedence (messagesDef : String)
    (messagesMap customMessages : List (String × String)) (rule : MRule) : String :=
  match assocFind customMessages (rule.name ++ "." ++ rule.attrPath) with
  | some t => t
  | none =>
    match assocFind customMessages rule.name with
    | some t => t
    | none =>
      match assocFind messagesMap (rule.name ++ "." ++ rule.attrPath) with
      | some t => t
      | none =>
        match assocFind messagesMap rule.name with
        | some t => t
        | none => messagesDef

/-- The precedence order the source actually implements: (1)
per-attribute-and-rule custom, (2) per-attribute-and-rule localized, (3)
per-rule custom, (4) per-rule localized, (5) default. -/
def codeTemplatePrecedence (messagesDef : String)
    (messagesMap customMessages : List (String × String)) (rule : MRule) : String :=
  match assocFind customMessages (rule.name ++ "." ++ rule.attrPath) with
  | some t => t
  | none =>
    match assocFind messagesMap (rule.name ++ "." ++ rule.attrPath) with
    | some t => t
    | none =>
      match assocFind customMessages rule.name with
      | some t => t
      | none =>
        match assocFind messagesMap rule.name with
        | some t => t
        | none => messagesDef

/-- C3 amended: for every message configuration and rule, the template
selector resolves in the order per-attribute-and-rule custom, then
per-attribute-and-rule localized, then per-rule custom, then per-rule
localized, then the generic default — a per-attribute-and-rule localized
template beats a per-rule custom message, the opposite of the claim's
tie-break. -/
theorem c3_template_precedence (messagesDef : String)
    (messagesMap customMessages : List (String × String)) (rule : MRule) :
    getTemplate messagesDef messagesMap customMessages rule
      = codeTemplatePrecedence messagesDef messagesMap customMessages rule := by
  unfold getTemplate codeTemplatePrecedence
  show templateLoop messagesDef messagesMap customMessages
      [rule.name ++ "." ++ rule.attrPath, rule.name] = _
  cases hc1 : assocFind customMessages (rule.name ++ "." ++ rule.attrPath) with
  | some t => simp [templateLoop, hc1]
  | none =>
    cases hm1 : assocFind messagesMap (rule.name ++ "." ++ rule.attrPath) with
    | some t => simp [templateLoop, hc1, hm1]
    | none =>
      cases hc2 : assocFind customMessages rule.name with
      | some t => simp [templateLoop, hc1, hm1, hc2]
      | none =>
        cases hm2 : assocFind messagesMap rule.name with
        | some t => simp [templateLoop, hc1, hm1, hc2, hm2]
        | none => simp [templateLoop, hc1, hm1, hc2, hm2]

/-- C3 counterexample: with a per-rule custom message for `min` and a
per-attribute-and-rule localized template for `min.items`, the source
renders the localized template, while the claim's precedence — a per-rule
custom message wins over a per-attribute-and-rule localized template —
demands the custom message. -/
theorem c3_counterexample :
    getTemplate "DEF" [("min.items", "LOCAL")] [("min", "CUSTOMRULE")]
        ⟨"min", "items", none, none⟩ = "LOCAL" ∧
    claimTemplatePrecedence "DEF" [("min.items", "LOCAL")] [("min", "CUSTOMRULE")]
        ⟨"min", "items", none, none⟩ = "CUSTOMRULE" ∧
    getTemplate "DEF" [("min.items", "LOCAL")] [("min", "CUSTOMRULE")]
        ⟨"min", "items", none, none⟩
      ≠ claimTemplatePrecedence "DEF" [("min.items", "LOCAL")] [("min", "CUSTOMRULE")]
        ⟨"min", "items", none, none⟩ := by
  refine ⟨rfl, rfl, ?_⟩
  decide

/-- `Messages._getAttributeName` (part_000 lines 47-60): an explicitly
set attribute name is returned as is; otherwise the localized attribute
catalog is consulted and the attribute formatter applied. -/
def getAttributeName (cfg : Config) (attributeNames : List (String × String))
    (attr : String) : String :=
  match assocFind attributeNames attr with
  | some n => n
  | none =>
    cfg.attributeFormatter
      (match assocFind cfg.messagesAttributes attr with
       | some n => n
       | none => attr)

/-- Modelled from the spec: `rule.getParameters()` of the external rule
catalog (§3: `rawValue` carries unparsed parameters such as `"3,10"`,
split on commas at call time); the renderer joins them back with `,`. -/
def paramsJoined : Option RuleVal → String
  | none => ""
  | some (.vstr s) => s
  | some (.varr ss) => String.intercalate "," ss
  | some (.vnum n) => if n < 0 then "-" ++ decRepr n.natAbs else decRepr n.natAbs

/-- `Messages._replacePlaceholders` (part_000 lines 131-146): the data
object holds `attribute` and the rule-name key (`||`-defaulted, so an
existing `attribute` entry survives a rule named `attribute`), each
substituted globally into the template. -/
def replacePlaceholders (attrDisplay ruleName params template : String) : String :=
  let data : List (String × String) :=
    if ruleName = "attribute" then [("attribute", attrDisplay)]
    else [("attribute", attrDisplay), (ruleName, params)]
  data.foldl (fun m kv => jsReplaceAll m (":" ++ kv.1) kv.2) template

/-- `Messages.render` (part_000 lines 77-91): a rule-attached custom
message wins outright; otherwise the selected template has its
placeholders substituted. The per-rule `Attributes.replacements`
formatting hooks are external and modelled as absent, so rendering falls
through to `_replacePlaceholders`. -/
def render (cfg : Config) (customMessages attributeNames : List (String × String))
    (rule : MRule) : String :=
  match rule.customMessage with
  | some m => m
  | none =>
    replacePlaceholders (getAttributeName cfg attributeNames rule.attrPath) rule.name
      (paramsJoined rule.value)
      (getTemplate cfg.messagesDef cfg.messagesMap customMessages rule)

/-- Concrete wildcard input for the custom-message claims: three array
elements, so the binding substitutes index 2 for the last entry. -/
def c6Input : Value :=
  .obj [("items", .arr [.obj [("qty", .vNum 0)], .obj [("qty", .vNum 0)], .obj [("qty", .vNum 0)]])]

/-- C6 counterexample: a custom message registered under the claim's key
`items.*.qty.min` is indeed rebound to `items.2.qty.min` during wildcard
expansion, but the renderer looks messages up under
`ruleName + '.' + attribute` (`min.items.2.qty`, part_000 line 103), so
the registered message is never the one rendered for a `min` failure on
`items.2.qty` — the rendering falls through to the localized template. -/
theorem c6_counterexample :
    assocFind (mkValidator cfgSample c6Input (.obj [("items.*.qty", .vStr "min:1")])
        [("items.*.qty.min", "CUSTOM")]).customMessages "items.2.qty.min" = some "CUSTOM" ∧
    render cfgSample
        (mkValidator cfgSample c6Input (.obj [("items.*.qty", .vStr "min:1")])
          [("items.*.qty.min", "CUSTOM")]).customMessages []
        ⟨"min", "items.2.qty", some (.vstr "1"), none⟩ ≠ "CUSTOM" := by
  have hc : (mkValidator cfgSample c6Input (.obj [("items.*.qty", .vStr "min:1")])
      [("items.*.qty.min", "CUSTOM")]).customMessages
      = [("items.*.qty.min", "CUSTOM"), ("items.0.qty.min", "CUSTOM"),
         ("items.1.qty.min", "CUSTOM"), ("items.2.qty.min", "CUSTOM")] := by
    show (parseRules cfgSample c6Input (.obj [("items.*.qty", .vStr "min:1")])
        [("items.*.qty.min", "CUSTOM")]).custom = _
    rw [parseRules_single (by decide) cfgSample c6Input "min:1" [("items.*.qty.min", "CUSTOM")]]
    rw [parseRulesCheck_star (by decide)]
    rw [parsedRulesRecurse_truthy (by decide)]
    rw [show jsLengthNat ((objectPath c6Input (wildcardParent "items.*.qty")).getD .vNull)
        = 3 from rfl]
    rw [wildcardLoop_step (by decide) (by decide)]
    rw [parseRulesCheck_no_star (by decide)]
    rw [wildcardLoop_step (by decide) (by decide)]
    rw [parseRulesCheck_no_star (by decide)]
    rw [wildcardLoop_step (by decide) (by decide)]
    rw [parseRulesCheck_no_star (by decide)]
    rw [wildcardLoop_done (by decide)]
    rfl
  rw [hc]
  exact ⟨by decide, by decide⟩

/-- C6 amended: custom message keys containing `*` are rebound with the
same indices during wildcard expansion, but in the renderer's key format
`ruleName + '.' + attributePath`: a custom message registered under
`min.items.*.qty` is rebound to `min.items.2.qty` and is the message
rendered for a failure of `min` on the concrete attribute `items.2.qty`
when the binding substitutes index 2. -/
theorem c6_wildcard_custom_messages :
    assocFind (mkValidator cfgSample c6Input (.obj [("items.*.qty", .vStr "min:1")])
        [("min.items.*.qty", "CUSTOM")]).customMessages "min.items.2.qty" = some "CUSTOM" ∧
    render cfgSample
        (mkValidator cfgSample c6Input (.obj [("items.*.qty", .vStr "min:1")])
          [("min.items.*.qty", "CUSTOM")]).customMessages []
        ⟨"min", "items.2.qty", some (.vstr "1"), none⟩ = "CUSTOM" := by
  have hc : (mkValidator cfgSample c6Input (.obj [("items.*.qty", .vStr "min:1")])
      [("min.items.*.qty", "CUSTOM")]).customMessages
      = [("min.items.*.qty", "CUSTOM"), ("min.items.0.qty", "CUSTOM"),
         ("min.items.1.qty", "CUSTOM"), ("min.items.2.qty", "CUSTOM")] := by
    show (parseRules cfgSample c6Input (.obj [("items.*.qty", .vStr "min:1")])
        [("min.items.*.qty", "CUSTOM")]).custom = _
    rw [parseRules_single (by decide) cfgSample c6Input "min:1" [("min.items.*.qty", "CUSTOM")]]
    rw [parseRulesCheck_star (by decide)]
    rw [parsedRulesRecurse_truthy (by decide)]
    rw [show jsLengthNat ((objectPath c6Input (wildcardParent "items.*.qty")).getD .vNull)
        = 3 from rfl]
    rw [wildcardLoop_step (by decide) (by decide)]
    rw [parseRulesCheck_no_star (by decide)]
    rw [wildcardLoop_step (by decide) (by decide)]
    rw [parseRulesCheck_no_star (by decide)]
    rw [wildcardLoop_step (by decide) (by decide)]
    rw [parseRulesCheck_no_star (by decide)]
    rw [wildcardLoop_done (by decide)]
    rfl
  rw [hc]
  exact ⟨by decide, by decide⟩

/-! The synchronous evaluation loop (`check`, lines 31-60). -/

/-- `_suppliedWithData` (lines 328-331): a literal own key of the input. -/
def suppliedWithData (v : VState) (attr : String) : Bool := v.input.hasOwn attr

/-- `_hasRule` (lines 361-370). -/
def hasRule (v : VState) (attr : String) (findRules : List String) : Bool :=
  ((assocFind v.rules attr).getD []).any (fun r => findRules.contains r.name)

/-- `_isValidatable` (lines 389-398): arrays and implicit rules are
always validatable; otherwise the `required` predicate decides. The
`required` predicate comes from the external registry; an absent
registration validates nothing. -/
def isValidatable (cfg : Config) (ruleName : String) (value : Option Value) : Bool :=
  match value with
  | some (.arr _) => true
  | _ =>
    if isImplicitName cfg ruleName then true
    else
      match getRuleDef cfg "required" with
      | some rd => rd.validate value none
      | none => false

/-- The body of `_shouldStopValidating` (lines 407-418) over the stop
setting: `undefined`, `false`, or a passed rule never stop; a list stops
when it contains the attribute; any other truthy setting stops. -/
def stopCheck (stop : StopSetting) (attr : String) (rulePassed : Bool) : Bool :=
  match stop with
  | .undef => false
  | .flag false => false
  | .flag true => if rulePassed then false else true
  | .attrs names => if rulePassed then false else names.contains attr

/-- `_shouldStopValidating` (lines 407-418). -/
def shouldStopValidating (v : VState) (attr : String) (rulePassed : Bool) : Bool :=
  stopCheck v.stopOnAttributes attr rulePassed

/-- `_addFailure` (lines 127-131), with the error collector modelled from
the spec (`errors.js` is absent from the sources): §6, it accepts the
`(attribute, message)` pairs in the order produced, append-only. The
engine never sets a rule-attached custom message, so `render` sees none. -/
def addFailure (cfg : Config) (v : VState) (ruleName : String) (value : Option RuleVal)
    (attr : String) : VState :=
  { v with
    errors := v.errors ++
      [(attr, render cfg v.customMessages v.attributeNames ⟨ruleName, attr, value, none⟩)]
    errorCount := v.errorCount + 1 }

/-- The inner rule loop of `check` (lines 40-56): skip unregistered rule
names (modelled from the spec §4.2, tolerant parsing: tokens matching no
registered predicate are silently skipped), gate on `_isValidatable`,
record failures, break on the stop policy. -/
def checkRules (cfg : Config) (inputValue : Option Value) (attr : String) :
    VState → List RuleSpec → VState
  | v, [] => v
  | v, r :: rest =>
    match getRuleDef cfg r.name with
    | none => checkRules cfg inputValue attr v rest
    | some rd =>
      if !(isValidatable cfg r.name inputValue) then checkRules cfg inputValue attr v rest
      else
        let rulePassed := rd.validate inputValue r.value
        let v' := if rulePassed then v else addFailure cfg v r.name r.value attr
        if shouldStopValidating v' attr rulePassed then v'
        else checkRules cfg inputValue attr v' rest

/-- One attribute iteration of `check` (lines 32-57), with the
`sometimes` gating of line 36. -/
def checkAttr (cfg : Config) (v : VState) (entry : String × List RuleSpec) : VState :=
  let inputValue := objectPath v.input entry.1
  if hasRule v entry.1 ["sometimes"] && !(suppliedWithData v entry.1) then v
  else checkRules cfg inputValue entry.1 v entry.2

/-- `check` (lines 31-60): iterate the canonical rule map in order and
report whether the error counter is zero. -/
def check (cfg : Config) (v : VState) : VState × Bool :=
  let v' := v.rules.foldl (checkAttr cfg) v
  (v', v'.errorCount == 0)

/-! The failure records one run of `check` appends (proof device): the
sequence depends only on the input, rules, stop setting and message
configuration, never on the already accumulated errors. -/

def rulesDelta (cfg : Config) (stop : StopSetting) (custom attrNames : List (String × String))
    (inputValue : Option Value) (attr : String) : List RuleSpec → List (String × String)
  | [] => []
  | r :: rest =>
    match getRuleDef cfg r.name with
    | none => rulesDelta cfg stop custom attrNames inputValue attr rest
    | some rd =>
      if !(isValidatable cfg r.name inputValue) then
        rulesDelta cfg stop custom attrNames inputValue attr rest
      else if rd.validate inputValue r.value then
        rulesDelta cfg stop custom attrNames inputValue attr rest
      else
        (attr, render cfg custom attrNames ⟨r.name, attr, r.value, none⟩) ::
          (if stopCheck stop attr false then []
           else rulesDelta cfg stop custom attrNames inputValue attr rest)

theorem stopCheck_passed (stop : StopSetting) (attr : String) :
    stopCheck stop attr true = false := by
  cases stop with
  | undef => rfl
  | flag b => cases b <;> rfl
  | attrs names => rfl

theorem checkRules_delta (cfg : Config) (inputValue : Option Value) (attr : String) :
    ∀ (rules : List RuleSpec) (v : VState),
      checkRules cfg inputValue attr v rules
        = { v with
            errors := v.errors ++
              rulesDelta cfg v.stopOnAttributes v.customMessages v.attributeNames
                inputValue attr rules
            errorCount := v.errorCount +
              (rulesDelta cfg v.stopOnAttributes v.customMessages v.attributeNames
                inputValue attr rules).length } := by
  intro rules
  induction rules with
  | nil =>
    intro v
    show v = _
    simp [rulesDelta]
  | cons r rest ih =>
    intro v
    show checkRules cfg inputValue attr v (r :: rest) = _
    rw [show checkRules cfg inputValue attr v (r :: rest)
        = match getRuleDef cfg r.name with
          | none => checkRules cfg inputValue attr v rest
          | some rd =>
            if !(isValidatable cfg r.name inputValue) then checkRules cfg inputValue attr v rest
            else
              let rulePassed := rd.validate inputValue r.value
              let v' := if rulePassed then v else addFailure cfg v r.name r.value attr
              if shouldStopValidating v' attr rulePassed then v'
              else checkRules cfg inputValue attr v' rest from rfl]
    rw [show rulesDelta cfg v.stopOnAttributes v.customMessages v.attributeNames
        inputValue attr (r :: rest)
        = match getRuleDef cfg r.name with
          | none => rulesDelta cfg v.stopOnAttributes v.customMessages v.attributeNames
              inputValue attr rest
          | some rd =>
            if !(isValidatable cfg r.name inputValue) then
              rulesDelta cfg v.stopOnAttributes v.customMessages v.attributeNames
                inputValue attr rest
            else if rd.validate inputValue r.value then
              rulesDelta cfg v.stopOnAttributes v.customMessages v.attributeNames
                inputValue attr rest
            else
              (attr, render cfg v.customMessages v.attributeNames ⟨r.name, attr, r.value, none⟩) ::
                (if stopCheck v.stopOnAttributes attr false then []
                 else rulesDelta cfg v.stopOnAttributes v.customMessages v.attributeNames
                   inputValue attr rest) from rfl]
    cases hdef : getRuleDef cfg r.name with
    | none => exact ih v
    | some rd =>
      dsimp only
      by_cases hval : isValidatable cfg r.name inputValue = true
      · rw [hval]
        simp only [Bool.not_true]
        rw [if_neg Bool.false_ne_true, if_neg Bool.false_ne_true]
        by_cases hpass : rd.validate inputValue r.value = true
        · rw [hpass, if_pos rfl]
          rw [show shouldStopValidating v attr true = false from
            stopCheck_passed v.stopOnAttributes attr]
          rw [if_neg Bool.false_ne_true]
          exact ih v
        · have hpass' : rd.validate inputValue r.value = false := by
            cases h : rd.validate inputValue r.value
            · rfl
            · exact absurd h hpass
          rw [hpass', if_neg Bool.false_ne_true]
          rw [show shouldStopValidating (addFailure cfg v r.name r.value attr) attr false
              = stopCheck v.stopOnAttributes attr false from rfl]
          by_cases hstop : stopCheck v.stopOnAttributes attr false = true
          · rw [if_pos hstop, if_pos hstop]
            show addFailure cfg v r.name r.value attr = _
            unfold addFailure
            simp
          · rw [if_neg hstop, if_neg hstop]
            rw [ih (addFailure cfg v r.name r.value attr)]
            unfold addFailure
            simp [List.append_assoc]
            omega
      · have hval' : isValidatable cfg r.name inputValue = false := by
          cases h : isValidatable cfg r.name inputValue
          · rfl
          · exact absurd h hval
        rw [hval']
        simp only [Bool.not_false, if_true]
        exact ih v

/-- The records one attribute contributes to a run of `check`, over the
state components the run reads (proof device). -/
def attrDelta (cfg : Config) (input : Value) (rules : List (String × List RuleSpec))
    (stop : StopSetting) (custom attrNames : List (String × String))
    (entry : String × List RuleSpec) : List (String × String) :=
  if (((assocFind rules entry.1).getD []).any (fun ru => ["sometimes"].contains ru.name))
      && !(input.hasOwn entry.1) then []
  else rulesDelta cfg stop custom attrNames (objectPath input entry.1) entry.1 entry.2

theorem foldl_checkAttr_delta (cfg : Config)
    (entries : List (String × List RuleSpec)) :
    ∀ (i : Value) (r : List (String × List RuleSpec))
      (cm an : List (String × String)) (stop : StopSetting) (ha : Bool)
      (E : List (String × String)) (n : Nat),
      entries.foldl (checkAttr cfg) ⟨i, r, cm, an, stop, E, n, ha⟩
        = ⟨i, r, cm, an, stop,
            E ++ entries.flatMap (attrDelta cfg i r stop cm an),
            n + (entries.flatMap (attrDelta cfg i r stop cm an)).length, ha⟩ := by
  induction entries with
  | nil =>
    intro i r cm an stop ha E n
    simp
  | cons e rest ih =>
    intro i r cm an stop ha E n
    have hca : checkAttr cfg ⟨i, r, cm, an, stop, E, n, ha⟩ e
        = if (((assocFind r e.1).getD []).any (fun ru => ["sometimes"].contains ru.name))
            && !(i.hasOwn e.1) then (⟨i, r, cm, an, stop, E, n, ha⟩ : VState)
          else checkRules cfg (objectPath i e.1) e.1 ⟨i, r, cm, an, stop, E, n, ha⟩ e.2 := rfl
    rw [List.foldl_cons, hca]
    by_cases hgate : ((((assocFind r e.1).getD []).any (fun ru => ["sometimes"].contains ru.name))
        && !(i.hasOwn e.1)) = true
    · rw [if_pos hgate, ih i r cm an stop ha E n, List.flatMap_cons]
      rw [show attrDelta cfg i r stop cm an e = [] from by unfold attrDelta; rw [if_pos hgate]]
      simp
    · rw [if_neg hgate, checkRules_delta]
      dsimp only
      rw [ih]
      rw [List.flatMap_cons]
      rw [show attrDelta cfg i r stop cm an e
          = rulesDelta cfg stop cm an (objectPath i e.1) e.1 e.2 from by
        unfold attrDelta; rw [if_neg hgate]]
      simp [List.append_assoc]
      omega

/-- C2 amended: running `check` twice on the same fresh validator state
with no mutation in between returns the same boolean both times, but the
recorded failure sequence after the second run is the first run's
sequence appended to itself — identical to the first run's sequence
exactly when the first run recorded no failures. -/
theorem c2_check_twice (cfg : Config) (v : VState)
    (he : v.errors = []) (hc : v.errorCount = 0) :
    (check cfg (check cfg v).1).2 = (check cfg v).2 ∧
    (check cfg (check cfg v).1).1.errors = (check cfg v).1.errors ++ (check cfg v).1.errors ∧
    ((check cfg v).1.errors = [] →
      (check cfg (check cfg v).1).1.errors = (check cfg v).1.errors) := by
  obtain ⟨i, r, cm, an, stop, E, n, ha⟩ := v
  simp only at he hc
  subst he hc
  have h1 : check cfg ⟨i, r, cm, an, stop, [], 0, ha⟩
      = (⟨i, r, cm, an, stop,
          [] ++ (r.flatMap (attrDelta cfg i r stop cm an)),
          0 + (r.flatMap (attrDelta cfg i r stop cm an)).length, ha⟩,
        ((0 + (r.flatMap (attrDelta cfg i r stop cm an)).length) == 0)) := by
    unfold check
    rw [foldl_checkAttr_delta]
  have h2 : check cfg (⟨i, r, cm, an, stop,
      [] ++ (r.flatMap (attrDelta cfg i r stop cm an)),
      0 + (r.flatMap (attrDelta cfg i r stop cm an)).length, ha⟩ : VState)
      = (⟨i, r, cm, an, stop,
          ([] ++ (r.flatMap (attrDelta cfg i r stop cm an)))
            ++ (r.flatMap (attrDelta cfg i r stop cm an)),
          (0 + (r.flatMap (attrDelta cfg i r stop cm an)).length)
            + (r.flatMap (attrDelta cfg i r stop cm an)).length, ha⟩,
        (((0 + (r.flatMap (attrDelta cfg i r stop cm an)).length)
            + (r.flatMap (attrDelta cfg i r stop cm an)).length) == 0)) := by
    unfold check
    rw [foldl_checkAttr_delta]
  rw [h1, h2]
  refine ⟨?_, by simp, by intro h; simp at h ⊢; exact h⟩
  show ((0 + (r.flatMap (attrDelta cfg i r stop cm an)).length
      + (r.flatMap (attrDelta cfg i r stop cm an)).length) == 0)
      = ((0 + (r.flatMap (attrDelta cfg i r stop cm an)).length) == 0)
  cases hD : (r.flatMap (attrDelta cfg i r stop cm an)).length with
  | zero => rfl
  | succ k => rfl

/-- C2 witness: the two-run theorem applied to a freshly constructed
validator over the empty input with a failing `required` rule. -/
theorem c2_check_twice_witness :
    (check cfgSample (check cfgSample (mkValidator cfgSample (.obj [])
        (.obj [("name", .vStr "required")]) [])).1).2
      = (check cfgSample (mkValidator cfgSample (.obj [])
        (.obj [("name", .vStr "required")]) [])).2 ∧
    (check cfgSample (check cfgSample (mkValidator cfgSample (.obj [])
        (.obj [("name", .vStr "required")]) [])).1).1.errors
      = (check cfgSample (mkValidator cfgSample (.obj [])
          (.obj [("name", .vStr "required")]) [])).1.errors
        ++ (check cfgSample (mkValidator cfgSample (.obj [])
          (.obj [("name", .vStr "required")]) [])).1.errors :=
  ⟨(c2_check_twice cfgSample (mkValidator cfgSample (.obj [])
      (.obj [("name", .vStr "required")]) []) rfl rfl).1,
   (c2_check_twice cfgSample (mkValidator cfgSample (.obj [])
      (.obj [("name", .vStr "required")]) []) rfl rfl).2.1⟩

/-- C2 counterexample: on a fresh validator over the empty input with the
single rule `{name: "required"}`, the second `check()` run returns the
same boolean but appends the failure record again, so the recorded
sequence after the second run differs from the sequence after the first —
the claim's "identical FailureRecord sequence" fails. -/
theorem c2_counterexample :
    (check cfgSample (check cfgSample (mkValidator cfgSample (.obj [])
        (.obj [("name", .vStr "required")]) [])).1).1.errors
      ≠ (check cfgSample (mkValidator cfgSample (.obj [])
        (.obj [("name", .vStr "required")]) [])).1.errors ∧
    (check cfgSample (mkValidator cfgSample (.obj [])
        (.obj [("name", .vStr "required")]) [])).1.errors ≠ [] := by
  have hps : parseRules cfgSample (.obj []) (.obj [("name", .vStr "required")]) []
      = ⟨[("name", [⟨"required", none⟩])], [], false⟩ := by
    rw [parseRules_single (by decide) cfgSample (.obj []) "required" []]
    rw [parseRulesCheck_no_star (by decide)]
    rfl
  have hv0 : mkValidator cfgSample (.obj []) (.obj [("name", .vStr "required")]) []
      = ⟨.obj [],
          (parseRules cfgSample (.obj []) (.obj [("name", .vStr "required")]) []).parsed,
          (parseRules cfgSample (.obj []) (.obj [("name", .vStr "required")]) []).custom,
          [], .undef, [], 0,
          (parseRules cfgSample (.obj []) (.obj [("name", .vStr "required")]) []).hasAsync⟩ := rfl
  rw [hv0, hps]
  exact ⟨by decide, by decide⟩

/-- C7: with `required|min:5` on an absent attribute and global
stop-on-error enabled, `check` records exactly one failure for that
attribute — the `required` failure — and reports failure; `min` never
contributes a record (it is both short-circuited by the stop policy and
non-validatable on an absent value). The `required` and `min` predicates
are the spec-modelled catalog entries. -/
theorem c7_required_min_short_circuit (cfg : Config) (input : Value) (attr : String)
    (cm : List (String × String))
    (hreq : getRuleDef cfg "required" = some sampleRequiredDef)
    (hattr : attr ≠ "") (hnostar : (charIndexOf '*' attr.toList).isSome = false)
    (htruthy : input.truthy = true)
    (habsent : objectPath input attr = none) :
    (check cfg (stopOnError (mkValidator cfg input
        (.obj [(attr, .vStr "required|min:5")]) cm) (.flag true))).1.errors
      = [(attr, render cfg cm [] ⟨"required", attr, none, none⟩)] ∧
    (check cfg (stopOnError (mkValidator cfg input
        (.obj [(attr, .vStr "required|min:5")]) cm) (.flag true))).2 = false := by
  have hparsed : (parseRules cfg input (.obj [(attr, .vStr "required|min:5")]) cm).parsed
      = [(attr, [⟨"required", none⟩, ⟨"min", some (.vstr "5")⟩])] := by
    rw [parseRules_single hattr cfg input "required|min:5" cm,
      parseRulesCheck_no_star hnostar, parseRulesDefault_parsed]
    rfl
  have hcustom : (parseRules cfg input (.obj [(attr, .vStr "required|min:5")]) cm).custom = cm := by
    rw [parseRules_single hattr cfg input "required|min:5" cm,
      parseRulesCheck_no_star hnostar, parseRulesDefault_custom]
    rfl
  have hstate : stopOnError (mkValidator cfg input
      (.obj [(attr, .vStr "required|min:5")]) cm) (.flag true)
      = ⟨input, [(attr, [⟨"required", none⟩, ⟨"min", some (.vstr "5")⟩])], cm, [],
          .flag true, [], 0,
          (parseRules cfg input (.obj [(attr, .vStr "required|min:5")]) cm).hasAsync⟩ := by
    have hco : stopOnError (mkValidator cfg input
        (.obj [(attr, .vStr "required|min:5")]) cm) (.flag true)
        = ⟨(if input.truthy = true then input else .obj []),
            (parseRules cfg (if input.truthy = true then input else .obj [])
              (.obj [(attr, .vStr "required|min:5")]) cm).parsed,
            (parseRules cfg (if input.truthy = true then input else .obj [])
              (.obj [(attr, .vStr "required|min:5")]) cm).custom,
            [], .flag true, [], 0,
            (parseRules cfg (if input.truthy = true then input else .obj [])
              (.obj [(attr, .vStr "required|min:5")]) cm).hasAsync⟩ := rfl
    rw [hco]
    rw [if_pos htruthy]
    rw [hparsed, hcustom]
  have hADval : attrDelta cfg input [(attr, [⟨"required", none⟩, ⟨"min", some (.vstr "5")⟩])]
      (.flag true) cm [] (attr, [⟨"required", none⟩, ⟨"min", some (.vstr "5")⟩])
      = [(attr, render cfg cm [] ⟨"required", attr, none, none⟩)] := by
    unfold attrDelta
    rw [show assocFind [(attr, [(⟨"required", none⟩ : RuleSpec), ⟨"min", some (.vstr "5")⟩])] attr
        = some [⟨"required", none⟩, ⟨"min", some (.vstr "5")⟩] from by
      unfold assocFind
      rw [if_pos rfl]]
    show rulesDelta cfg (.flag true) cm [] (objectPath input attr) attr
        [⟨"required", none⟩, ⟨"min", some (.vstr "5")⟩] = _
    rw [habsent]
    have hu : rulesDelta cfg (.flag true) cm [] none attr
        [⟨"required", none⟩, ⟨"min", some (.vstr "5")⟩]
        = match getRuleDef cfg "required" with
          | none => rulesDelta cfg (.flag true) cm [] none attr [⟨"min", some (.vstr "5")⟩]
          | some rd =>
            if !(isValidatable cfg "required" none) then
              rulesDelta cfg (.flag true) cm [] none attr [⟨"min", some (.vstr "5")⟩]
            else if rd.validate none none then
              rulesDelta cfg (.flag true) cm [] none attr [⟨"min", some (.vstr "5")⟩]
            else
              (attr, render cfg cm [] ⟨"required", attr, none, none⟩) ::
                (if stopCheck (.flag true) attr false then []
                 else rulesDelta cfg (.flag true) cm [] none attr [⟨"min", some (.vstr "5")⟩]) := rfl
    rw [hu, hreq]
    have hval : isValidatable cfg "required" none = true := by
      unfold isValidatable isImplicitName
      rw [hreq]
      rfl
    dsimp only
    rw [hval]
    rw [show sampleRequiredDef.validate none none = false from rfl]
    simp only [Bool.not_true]
    rw [if_neg Bool.false_ne_true, if_neg Bool.false_ne_true]
    rw [show stopCheck (.flag true) attr false = true from rfl]
    rw [if_pos rfl]
  refine ⟨?_, ?_⟩
  · rw [hstate]
    show (List.foldl (checkAttr cfg) _ _).errors = _
    rw [foldl_checkAttr_delta]
    show [] ++ ([(attr, [(⟨"required", none⟩ : RuleSpec), ⟨"min", some (.vstr "5")⟩])].flatMap
        (attrDelta cfg input [(attr, [⟨"required", none⟩, ⟨"min", some (.vstr "5")⟩])]
          (.flag true) cm [])) = _
    rw [List.flatMap_cons, hADval]
    rfl
  · rw [hstate]
    show ((List.foldl (checkAttr cfg) _ _).errorCount == 0) = false
    rw [foldl_checkAttr_delta]
    show ((0 + ([(attr, [(⟨"required", none⟩ : RuleSpec), ⟨"min", some (.vstr "5")⟩])].flatMap
        (attrDelta cfg input [(attr, [⟨"required", none⟩, ⟨"min", some (.vstr "5")⟩])]
          (.flag true) cm [])).length) == 0) = false
    rw [List.flatMap_cons, hADval]
    rfl

/-! The public entry points `passes` / `fails` (lines 466-486) and their
callback gate `_checkAsync` (lines 495-502). -/

/-- What a call to `passes`/`fails` does for the caller: throw
synchronously, return a boolean synchronously, or hand off to the
asynchronous path (returning `undefined`). -/
inductive RunOutcome where
  | threw (msg : String)
  | syncBool (b : Bool)
  | asyncRun
deriving DecidableEq

/-- `_checkAsync` (lines 495-502): throws when the parsed rule set has
async rules and no callback was supplied; otherwise reports whether the
async route is taken. -/
def checkAsyncGate (v : VState) (funcName : String) (hasCallback : Bool) : Except String Bool :=
  if v.hasAsync && !hasCallback then
    .error (funcName ++ " expects a callback when async rules are being tested.")
  else
    .ok (v.hasAsync || hasCallback)

/-- `passes` (lines 466-472): gate first, then either the async path or
the synchronous `check()` boolean. -/
def jsPasses (cfg : Config) (v : VState) (hasCallback : Bool) : RunOutcome :=
  match checkAsyncGate v "passes" hasCallback with
  | .error m => .threw m
  | .ok true => .asyncRun
  | .ok false => .syncBool (check cfg v).2

/-- `fails` (lines 475-486): gate first, then either the async path or
the negated synchronous `check()` boolean. -/
def jsFails (cfg : Config) (v : VState) (hasCallback : Bool) : RunOutcome :=
  match checkAsyncGate v "fails" hasCallback with
  | .error m => .threw m
  | .ok true => .asyncRun
  | .ok false => .syncBool (!(check cfg v).2)

/-- C8: on any state whose parsed rule set flagged an async rule,
`passes` and `fails` without a callback throw immediately and
synchronously — the outcome is the thrown usage error, carrying no
result of any validation work. -/
theorem c8_async_requires_callback (cfg : Config) (v : VState) (ha : v.hasAsync = true) :
    jsPasses cfg v false
      = .threw "passes expects a callback when async rules are being tested." ∧
    jsFails cfg v false
      = .threw "fails expects a callback when async rules are being tested." := by
  unfold jsPasses jsFails checkAsyncGate
  rw [ha]
  exact ⟨rfl, rfl⟩

/-- C8 witness: the gate theorem at a concrete state with `hasAsync`
set. -/
theorem c8_async_requires_callback_witness :
    jsPasses cfgSample ⟨.obj [], [], [], [], .undef, [], 0, true⟩ false
      = .threw "passes expects a callback when async rules are being tested." ∧
    jsFails cfgSample ⟨.obj [], [], [], [], .undef, [], 0, true⟩ false
      = .threw "fails expects a callback when async rules are being tested." :=
  c8_async_requires_callback cfgSample ⟨.obj [], [], [], [], .undef, [], 0, true⟩ rfl

/-- C10: on any state with no async rule, supplying a callback still
routes `passes`/`fails` through the asynchronous path — no boolean is
returned; the synchronous boolean of `check()` is returned exactly when
no callback is supplied. -/
theorem c10_callback_forces_async_path (cfg : Config) (v : VState)
    (ha : v.hasAsync = false) :
    jsPasses cfg v true = .asyncRun ∧
    jsFails cfg v true = .asyncRun ∧
    jsPasses cfg v false = .syncBool (check cfg v).2 ∧
    jsFails cfg v false = .syncBool (!(check cfg v).2) := by
  unfold jsPasses jsFails checkAsyncGate
  rw [ha]
  exact ⟨rfl, rfl, rfl, rfl⟩

/-- C10 witness: the routing theorem at a concrete all-synchronous
state. -/
theorem c10_callback_forces_async_path_witness :
    jsPasses cfgSample ⟨.obj [], [], [], [], .undef, [], 0, false⟩ true = .asyncRun ∧
    jsPasses cfgSample ⟨.obj [], [], [], [], .undef, [], 0, false⟩ false
      = .syncBool (check cfgSample ⟨.obj [], [], [], [], .undef, [], 0, false⟩).2 :=
  ⟨(c10_callback_forces_async_path cfgSample
      ⟨.obj [], [], [], [], .undef, [], 0, false⟩ rfl).1,
   (c10_callback_forces_async_path cfgSample
      ⟨.obj [], [], [], [], .undef, [], 0, false⟩ rfl).2.2.1⟩

/-- C7 witness: the short-circuit theorem at the empty input and the
attribute `age`. -/
theorem c7_required_min_short_circuit_witness :
    (check cfgSample (stopOnError (mkValidator cfgSample (.obj [("other", .vNum 1)])
        (.obj [("age", .vStr "required|min:5")]) []) (.flag true))).1.errors
      = [("age", render cfgSample [] [] ⟨"required", "age", none, none⟩)] :=
  (c7_required_min_short_circuit cfgSample (.obj [("other", .vNum 1)]) "age" []
    rfl (by decide) (by decide) rfl rfl).1

/-! The asynchronous coordinator (`AsyncResolvers`, driven by
`checkAsync`, lines 69-120). The coordinator class itself lives in
`async.js`, absent from the sources, so it is modelled from the spec
(§4.4). -/

/-- Modelled from the spec (§4.4): the three observable coordinator
events of one run — a token registration, a token resolution, and the
dispatch-complete signal. -/
inductive CoordEvent where
  | register
  | resolve
  | complete
deriving DecidableEq

/-- Occurrences of one event in a run. -/
def countEv (e : CoordEvent) : List CoordEvent → Nat
  | [] => 0
  | x :: rest => (if x = e then 1 else 0) + countEv e rest

/-- Modelled from the spec (§4.4, AsyncRunState of §3): the
coordinator's per-run state — tokens issued, tokens resolved, whether
dispatch has been marked complete, and how often the aggregate callback
has fired. -/
structure CoordState where
  registered : Nat
  resolved : Nat
  dispatchComplete : Bool
  fireCount : Nat
deriving DecidableEq

/-- Modelled from the spec (§4.4): `register` issues a fresh token;
`resolve` marks one token resolved and fires the aggregate callback
when it was the last pending token and dispatch is complete;
`markDispatchComplete` fires immediately when no token is pending. -/
def coordStep (s : CoordState) (e : CoordEvent) : CoordState :=
  match e with
  | .register => { s with registered := s.registered + 1 }
  | .resolve =>
    let s' := { s with resolved := s.resolved + 1 }
    if s'.dispatchComplete && s'.resolved == s'.registered then
      { s' with fireCount := s'.fireCount + 1 }
    else s'
  | .complete =>
    let s' := { s with dispatchComplete := true }
    if s'.resolved == s'.registered then { s' with fireCount := s'.fireCount + 1 }
    else s'

/-- One coordinator run: fold the events from the fresh per-run state. -/
def coordRun (es : List CoordEvent) : CoordState :=
  es.foldl coordStep ⟨0, 0, false, 0⟩

/-- The event sequences the engine can produce (§4.3-4.4): N
registrations, all preceding the single dispatch-complete signal, and N
resolutions in an arbitrary order, each after its registration (no
prefix resolves more tokens than it has registered), interleaved
arbitrarily with the other events. -/
@[reducible] def ValidRun (N : Nat) (es : List CoordEvent) : Prop :=
  countEv .register es = N ∧ countEv .resolve es = N ∧ countEv .complete es = 1 ∧
  (∀ i, (hi : i < es.length) → es.get ⟨i, hi⟩ = .complete →
    countEv .register (es.take i) = N) ∧
  (∀ i, i < es.length → countEv .resolve (es.take i) ≤ countEv .register (es.take i))

theorem countEv_append (e : CoordEvent) (l₁ l₂ : List CoordEvent) :
    countEv e (l₁ ++ l₂) = countEv e l₁ + countEv e l₂ := by
  induction l₁ with
  | nil => simp [countEv]
  | cons x rest ih =>
    show (if x = e then 1 else 0) + countEv e (rest ++ l₂)
      = ((if x = e then 1 else 0) + countEv e rest) + countEv e l₂
    rw [ih]
    omega

theorem countEv_pos_of_mem (x : CoordEvent) :
    ∀ l : List CoordEvent, x ∈ l → 0 < countEv x l := by
  intro l
  induction l with
  | nil => intro hx; cases hx
  | cons e rest ih =>
    intro hx
    show 0 < (if e = x then 1 else 0) + countEv x rest
    by_cases he : e = x
    · rw [if_pos he]
      omega
    · rw [if_neg he]
      rcases List.mem_cons.mp hx with h | h
      · exact absurd h.symm he
      · have := ih h
        omega

/-- A run segment with no registration and no completion consists of
resolutions only. -/
theorem all_resolve_of_counts (post : List CoordEvent)
    (hreg : countEv .register post = 0) (hcom : countEv .complete post = 0) :
    ∀ x ∈ post, x = .resolve := by
  intro x hx
  cases x with
  | resolve => rfl
  | register =>
    have := countEv_pos_of_mem .register post hx
    omega
  | complete =>
    have := countEv_pos_of_mem .complete post hx
    omega

theorem length_of_all_resolve (post : List CoordEvent) :
    (∀ x ∈ post, x = .resolve) → countEv .resolve post = post.length := by
  induction post with
  | nil => intro _; rfl
  | cons e rest ih =>
    intro hall
    have he : e = .resolve := hall e (List.mem_cons_self e rest)
    subst he
    show (if CoordEvent.resolve = .resolve then 1 else 0) + countEv .resolve rest
      = rest.length + 1
    rw [if_pos rfl, ih (fun x hx => hall x (List.mem_cons_of_mem _ hx))]
    omega

/-- Splitting a run at its unique dispatch-complete event. -/
theorem countEv_one_split (es : List CoordEvent) (h : countEv .complete es = 1) :
    ∃ pre post, es = pre ++ .complete :: post ∧ countEv .complete pre = 0 ∧
      countEv .complete post = 0 := by
  induction es with
  | nil => exact absurd h (by simp [countEv])
  | cons e rest ih =>
    cases e with
    | complete =>
      refine ⟨[], rest, rfl, rfl, ?_⟩
      have h' : 1 + countEv .complete rest = 1 := by simpa [countEv] using h
      omega
    | register =>
      have h' : countEv .complete rest = 1 := by simpa [countEv] using h
      obtain ⟨pre, post, heq, hpre, hpost⟩ := ih h'
      exact ⟨.register :: pre, post, by rw [heq]; rfl, by simpa [countEv] using hpre, hpost⟩
    | resolve =>
      have h' : countEv .complete rest = 1 := by simpa [countEv] using h
      obtain ⟨pre, post, heq, hpre, hpost⟩ := ih h'
      exact ⟨.resolve :: pre, post, by rw [heq]; rfl, by simpa [countEv] using hpre, hpost⟩

/-- Before the dispatch-complete signal nothing fires: the fold only
counts. -/
theorem coordFold_no_complete (es : List CoordEvent) (h : countEv .complete es = 0) :
    ∀ r v f, es.foldl coordStep ⟨r, v, false, f⟩
      = ⟨r + countEv .register es, v + countEv .resolve es, false, f⟩ := by
  induction es with
  | nil => intro r v f; simp [countEv]
  | cons e rest ih =>
    intro r v f
    rw [List.foldl_cons]
    cases e with
    | register =>
      have hr : countEv .complete rest = 0 := by simpa [countEv] using h
      rw [show coordStep ⟨r, v, false, f⟩ .register = ⟨r + 1, v, false, f⟩ from rfl, ih hr]
      simp [countEv, CoordState.mk.injEq]
      omega
    | resolve =>
      have hr : countEv .complete rest = 0 := by simpa [countEv] using h
      rw [show coordStep ⟨r, v, false, f⟩ .resolve = ⟨r, v + 1, false, f⟩ from rfl, ih hr]
      simp [countEv, CoordState.mk.injEq]
      omega
    | complete =>
      exfalso
      have h2 : (1 : Nat) + countEv .complete rest = 0 := by
        rw [show countEv .complete (.complete :: rest)
            = 1 + countEv .complete rest from by simp [countEv]] at h
        exact h
      omega

/-- After the dispatch-complete signal, a block of resolutions fires
exactly at the step that resolves the last pending token. -/
theorem coordFold_resolves (post : List CoordEvent) :
    (∀ x ∈ post, x = .resolve) →
    ∀ (N v f : Nat), v + post.length ≤ N →
      post.foldl coordStep ⟨N, v, true, f⟩
        = ⟨N, v + post.length, true,
            if v + post.length = N ∧ post ≠ [] then f + 1 else f⟩ := by
  induction post with
  | nil =>
    intro _ N v f _
    simp
  | cons e rest ih =>
    intro hall N v f hle
    have he : e = .resolve := hall e (List.mem_cons_self e rest)
    subst he
    rw [List.foldl_cons]
    have hstep : coordStep ⟨N, v, true, f⟩ .resolve
        = if ((v + 1) == N) = true then (⟨N, v + 1, true, f + 1⟩ : CoordState)
          else ⟨N, v + 1, true, f⟩ := by
      show (if (true && ((v + 1) == N)) = true then (⟨N, v + 1, true, f + 1⟩ : CoordState)
          else ⟨N, v + 1, true, f⟩) = _
      rw [Bool.true_and]
    by_cases hvN : v + 1 = N
    · have hrest : rest = [] := by
        apply List.length_eq_zero.mp
        simp only [List.length_cons] at hle
        omega
      subst hrest
      rw [hstep, if_pos (by rw [beq_iff_eq]; exact hvN)]
      rw [List.foldl_nil]
      simp [hvN]
    · rw [hstep, if_neg (by simp only [beq_iff_eq]; exact hvN)]
      rw [ih (fun x hx => hall x (List.mem_cons_of_mem _ hx)) N (v + 1) f
        (by simp only [List.length_cons] at hle; omega)]
      have harith : v + (CoordEvent.resolve :: rest).length = v + 1 + rest.length := by
        simp only [List.length_cons]
        omega
      rw [harith]
      rcases eq_or_ne rest [] with hr | hr
      · subst hr
        simp [hvN]
      · simp [hr]

/-- C1: over the spec-modelled coordinator, every valid run — N
registrations all before the single dispatch-complete signal, the N
resolutions in an arbitrary order, arbitrarily interleaved — fires the
aggregate callback exactly once, and no proper prefix of the run has
fired it; the one firing therefore happens only at the run's final
event, i.e. after both the last resolution and the dispatch-complete
signal, and never twice. -/
theorem c1_coordinator_fires_once (N : Nat) (es : List CoordEvent) (h : ValidRun N es) :
    (coordRun es).fireCount = 1 ∧
    ∀ p q, es = p ++ q → q ≠ [] → (coordRun p).fireCount = 0 := by
  obtain ⟨hreg, hres, hcom, hprereg, hpreff⟩ := h
  obtain ⟨pre, post, heq, hpreC, hpostC⟩ := countEv_one_split es hcom
  subst heq
  have hlenlt : pre.length < (pre ++ .complete :: post).length := by
    rw [List.length_append, List.length_cons]
    omega
  have hget : (pre ++ .complete :: post).get ⟨pre.length, hlenlt⟩ = .complete := by
    simp [List.getElem_append_right]
  have htake : (pre ++ .complete :: post).take pre.length = pre := List.take_left _ _
  have hpreN : countEv .register pre = N := by
    have h2 := hprereg pre.length hlenlt hget
    rwa [htake] at h2
  have hk : countEv .resolve pre ≤ N := by
    have h2 := hpreff pre.length hlenlt
    rw [htake] at h2
    omega
  have hregtail : countEv .register (CoordEvent.complete :: post)
      = countEv .register post := by
    simp [countEv]
  have hrestail : countEv .resolve (CoordEvent.complete :: post)
      = countEv .resolve post := by
    simp [countEv]
  rw [countEv_append, hregtail] at hreg
  rw [countEv_append, hrestail] at hres
  have hpostreg : countEv .register post = 0 := by omega
  have hall : ∀ x ∈ post, x = .resolve := all_resolve_of_counts post hpostreg hpostC
  have hlenpost : countEv .resolve post = post.length := length_of_all_resolve post hall
  have hfoldpre : pre.foldl coordStep ⟨0, 0, false, 0⟩
      = ⟨N, countEv .resolve pre, false, 0⟩ := by
    rw [coordFold_no_complete pre hpreC 0 0 0, hpreN]
    simp
  by_cases hkN : countEv .resolve pre = N
  · -- everything resolved before the signal: the complete event is last and fires
    have hpost0 : post = [] := by
      apply List.length_eq_zero.mp
      omega
    subst hpost0
    constructor
    · show ((pre ++ [CoordEvent.complete]).foldl coordStep ⟨0, 0, false, 0⟩).fireCount = 1
      rw [List.foldl_append, hfoldpre, List.foldl_cons, List.foldl_nil]
      show (if ((countEv .resolve pre == N) = true) then
          (⟨N, countEv .resolve pre, true, 1⟩ : CoordState)
        else ⟨N, countEv .resolve pre, true, 0⟩).fireCount = 1
      rw [if_pos (by rw [beq_iff_eq]; exact hkN)]
    · intro p q hpq hq
      have hpC : countEv .complete p = 0 := by
        rw [List.append_eq_append_iff] at hpq
        rcases hpq with ⟨x, hx1, hx2⟩ | ⟨x, hx1, hx2⟩
        · -- p = pre ++ x with x ++ q = [complete]; q nonempty forces x = []
          have hx0 : x = [] := by
            apply List.length_eq_zero.mp
            have hlq := congrArg List.length hx2
            rw [List.length_append] at hlq
            have hqpos : 0 < q.length := List.length_pos.mpr hq
            simp at hlq
            omega
          subst hx0
          rw [List.append_nil] at hx1
          rw [← hx1] at hpreC
          exact hpreC
        · -- pre = p ++ x: p is complete-free as a prefix of pre
          have h2 := congrArg (countEv .complete) hx1
          rw [countEv_append] at h2
          omega
      show (p.foldl coordStep ⟨0, 0, false, 0⟩).fireCount = 0
      rw [coordFold_no_complete p hpC 0 0 0]
  · have hkLT : countEv .resolve pre < N := lt_of_le_of_ne hk hkN
    have hplen : countEv .resolve pre + post.length = N := by omega
    have hcompstep : coordStep ⟨N, countEv .resolve pre, false, 0⟩ .complete
        = ⟨N, countEv .resolve pre, true, 0⟩ := by
      show (if ((countEv .resolve pre == N) = true) then
          (⟨N, countEv .resolve pre, true, 1⟩ : CoordState)
        else ⟨N, countEv .resolve pre, true, 0⟩) = _
      rw [if_neg (by simp only [beq_iff_eq]; exact hkN)]
    constructor
    · show ((pre ++ .complete :: post).foldl coordStep ⟨0, 0, false, 0⟩).fireCount = 1
      rw [List.foldl_append, hfoldpre, List.foldl_cons, hcompstep]
      rw [coordFold_resolves post hall N (countEv .resolve pre) 0 (by omega)]
      have hpne : post ≠ [] := by
        intro hnil
        rw [hnil] at hplen
        simp at hplen
        omega
      rw [if_pos ⟨by omega, hpne⟩]
    · intro p q hpq hq
      by_cases hpC : countEv .complete p = 0
      · show (p.foldl coordStep ⟨0, 0, false, 0⟩).fireCount = 0
        rw [coordFold_no_complete p hpC 0 0 0]
      · rw [List.append_eq_append_iff] at hpq
        rcases hpq with ⟨x, hx1, hx2⟩ | ⟨x, hx1, hx2⟩
        · -- p = pre ++ x with x ++ q = complete :: post
          cases x with
          | nil =>
            rw [List.append_nil] at hx1
            rw [← hx1] at hpreC
            exact absurd hpreC hpC
          | cons c x' =>
            rw [List.cons_append] at hx2
            injection hx2 with hc1 hc2
            subst hc1
            subst hx1
            have hx'res : ∀ y ∈ x', y = CoordEvent.resolve := by
              intro y hy
              exact hall y (by rw [hc2]; exact List.mem_append_left _ hy)
            have hx'len : x'.length + q.length = post.length := by
              have := congrArg List.length hc2
              rw [List.length_append] at this
              omega
            have hqpos : 0 < q.length := List.length_pos.mpr hq
            show ((pre ++ CoordEvent.complete :: x').foldl coordStep
              ⟨0, 0, false, 0⟩).fireCount = 0
            rw [List.foldl_append, hfoldpre, List.foldl_cons, hcompstep]
            rw [coordFold_resolves x' hx'res N (countEv .resolve pre) 0 (by omega)]
            rw [if_neg (by rintro ⟨h1, -⟩; omega)]
        · -- pre = p ++ x: p complete-free, contradiction
          have h2 := congrArg (countEv .complete) hx1
          rw [countEv_append] at h2
          omega

/-- C1 witness: a two-token run whose second token resolves after the
dispatch-complete signal. -/
theorem c1_coordinator_fires_once_witness :
    ValidRun 2 [.register, .register, .resolve, .complete, .resolve] ∧
    (coordRun [.register, .register, .resolve, .complete, .resolve]).fireCount = 1 :=
  ⟨by decide,
   (c1_coordinator_fires_once 2 [.register, .register, .resolve, .complete, .resolve]
      (by decide)).1⟩

end ValidatorJS
